import Mathlib

/-!
Verification of the Prompt-Builder tree/prompt data-model core.

The definitions below are a shallow embedding of the repository's pure
data-model functions:

* the Folder/Component tree operations of `src/utils/treeUtils`
  (the string-id version: `isDescendant`, `insertNode`, `removeNode`,
  `moveNodeInTree`, `findNodeById`, `normalizeExpansionState`, ...);
* the prompt/section operations of `src/contexts/PromptContext.tsx`
  (`updateSection`, `duplicatePrompt`, `deletePrompt`,
  `getCompiledPromptText`) modelled as pure transitions on the
  provider's local state (the optimistic updates; network persistence
  is I/O outside the model);
* the legacy-file import pipeline of `src/utils/fileUtils.ts`
  (`parseLoadedData` with its numeric-to-string id translation map);
* `updateSectionContent` / `handleCopy` of the monolithic `src/App.tsx`.

JavaScript `JSON.parse(JSON.stringify(x))` deep clones are the identity
in this pure model; in-place mutation of such clones is modelled by the
corresponding pure transformation.  The `uuid` library's `v4` generator
(an external package) is modelled as a deterministic injective supply
`uuid : Nat → String` threaded through the state, matching its contract
that distinct calls return distinct fresh strings.
-/

/-- The five-valued component/section type enum
(`"instruction" | "role" | "context" | "format" | "style"`). -/
inductive CompType where
  | instruction
  | role
  | context
  | format
  | style
deriving DecidableEq, Repr

/-- Lowercase rendering of a `CompType`, i.e. the literal string value the
TypeScript code stores in `componentType` / `type`. -/
def CompType.toStr : CompType → String
  | .instruction => "instruction"
  | .role => "role"
  | .context => "context"
  | .format => "format"
  | .style => "style"

/-- Evaluation of `t.charAt(0).toUpperCase() + t.slice(1)` (from
`handleCopy` in `src/App.tsx`) on each of the five possible values of the
`type` field. -/
def CompType.capitalized : CompType → String
  | .instruction => "Instruction"
  | .role => "Role"
  | .context => "Context"
  | .format => "Format"
  | .style => "Style"

/-- A node of the sidebar tree: the `FolderType | ComponentType` tagged
union of `src/types/index.ts`.  `expanded` is `Option Bool` because data
loaded from storage may predate the `expanded` field (that is what
`normalizeExpansionState` repairs). -/
inductive TreeNode where
  | folder (id name : String) (children : List TreeNode) (expanded : Option Bool)
  | component (id name content : String) (componentType : CompType)

/-- The `id` field common to both variants. -/
def TreeNode.id : TreeNode → String
  | .folder i _ _ _ => i
  | .component i _ _ _ => i

/-- The `node.type === "folder"` test. -/
def TreeNode.isFolder : TreeNode → Bool
  | .folder _ _ _ _ => true
  | .component _ _ _ _ => false

mutual
/-- `isDescendant(descendant, ancestor)` from `treeUtils`: recursively
checks whether a node with `descendant`'s id appears anywhere under
`ancestor`'s children; `false` when `ancestor` is not a folder. -/
def isDescendant (d : TreeNode) : TreeNode → Bool
  | .component _ _ _ _ => false
  | .folder _ _ children _ => isDescendantList d children

/-- The `ancestor.children.some(child => child.id === descendant.id ||
(child.type === "folder" && isDescendant(descendant, child)))` loop body
of `isDescendant`. -/
def isDescendantList (d : TreeNode) : List TreeNode → Bool
  | [] => false
  | c :: rest =>
      (c.id == d.id || (c.isFolder && isDescendant d c)) || isDescendantList d rest
end

/-- `insertNode(tree, parentId, newNode)` from `treeUtils`: appends
`newNode` to the children of every folder whose id is `parentId`
(recursing into non-matching folders), leaving everything else as is. -/
def insertNode : List TreeNode → String → TreeNode → List TreeNode
  | [], _, _ => []
  | n :: rest, parentId, newNode =>
      (match n with
       | .folder i nm ch ex =>
           if i == parentId then .folder i nm (ch ++ [newNode]) ex
           else .folder i nm (insertNode ch parentId newNode) ex
       | c => c) :: insertNode rest parentId newNode

/-- `removeNode(tree, nodeId)` from `treeUtils` (string-id version):
filters out every node with the given id at the current level, then
recurses into the children of the surviving folders. -/
def removeNode : List TreeNode → String → List TreeNode
  | [], _ => []
  | n :: rest, nodeId =>
      if n.id == nodeId then removeNode rest nodeId
      else
        (match n with
         | .folder i nm ch ex => .folder i nm (removeNode ch nodeId) ex
         | c => c) :: removeNode rest nodeId

/-- `findNodeById(tree, nodeId)` from `treeUtils`: depth-first search,
checking each node, then its children, then its right siblings. -/
def findNodeById : List TreeNode → String → Option TreeNode
  | [], _ => none
  | n :: rest, nodeId =>
      if n.id == nodeId then some n
      else
        match n with
        | .folder _ _ ch _ =>
            match findNodeById ch nodeId with
            | some found => some found
            | none => findNodeById rest nodeId
        | _ => findNodeById rest nodeId

/-- The `findAndRemove` helper closed over by `moveNodeInTree`: locates
the first node (in the same depth-first order as `findNodeById`) whose id
matches, splices it out, and returns it together with the remaining
forest; `none` if no node matches. -/
def findAndRemove : List TreeNode → String → Option (TreeNode × List TreeNode)
  | [], _ => none
  | n :: rest, targetId =>
      if n.id == targetId then some (n, rest)
      else
        match n with
        | .folder i nm ch ex =>
            match findAndRemove ch targetId with
            | some (found, ch') => some (found, .folder i nm ch' ex :: rest)
            | none =>
                match findAndRemove rest targetId with
                | some (found, rest') => some (found, .folder i nm ch ex :: rest')
                | none => none
        | c =>
            match findAndRemove rest targetId with
            | some (found, rest') => some (found, c :: rest')
            | none => none

/-- The `insertIntoTarget` helper closed over by `moveNodeInTree`: pushes
the carried node onto the children of the first folder whose id matches
`targetId`; `none` when no folder with that id exists anywhere. -/
def insertIntoTarget : List TreeNode → String → TreeNode → Option (List TreeNode)
  | [], _, _ => none
  | n :: rest, targetId, node =>
      match n with
      | .folder i nm ch ex =>
          if i == targetId then some (.folder i nm (ch ++ [node]) ex :: rest)
          else
            match insertIntoTarget ch targetId node with
            | some ch' => some (.folder i nm ch' ex :: rest)
            | none =>
                match insertIntoTarget rest targetId node with
                | some rest' => some (.folder i nm ch ex :: rest')
                | none => none
      | c =>
          match insertIntoTarget rest targetId node with
          | some rest' => some (c :: rest')
          | none => none

/-- `moveNodeInTree(tree, draggedNodeId, targetFolderId)` from
`treeUtils`: removes the dragged node from its current location and
appends it to the target folder's children; returns the original forest
when the dragged node or the target folder cannot be found. -/
def moveNodeInTree (tree : List TreeNode) (draggedNodeId targetFolderId : String) :
    List TreeNode :=
  match findAndRemove tree draggedNodeId with
  | none => tree
  | some (nodeToMove, updatedTree) =>
      match insertIntoTarget updatedTree targetFolderId nodeToMove with
      | none => tree
      | some result => result

mutual
/-- The per-node transformation applied by `normalizeExpansionState`:
folders get an explicit `expanded` boolean (prior value if present,
`defaultExpanded` otherwise) and normalized children; components are
returned unchanged. -/
def normalizeNode (d : Bool) : TreeNode → TreeNode
  | .folder i nm ch ex => .folder i nm (normalizeExpansionStateCore ch d) (some (ex.getD d))
  | c => c

/-- `normalizeExpansionState(nodes, defaultExpanded)` from `treeUtils`. -/
def normalizeExpansionStateCore : List TreeNode → Bool → List TreeNode
  | [], _ => []
  | n :: rest, d => normalizeNode d n :: normalizeExpansionStateCore rest d
end

/-- Wrapper fixing the argument order of the source signature
`normalizeExpansionState(nodes, defaultExpanded = false)`. -/
def normalizeExpansionState (nodes : List TreeNode) (defaultExpanded : Bool := false) :
    List TreeNode :=
  normalizeExpansionStateCore nodes defaultExpanded

mutual
/-- All ids occurring in a node's subtree (the node's own id first). -/
def nodeIds : TreeNode → List String
  | .folder i _ ch _ => i :: treeIds ch
  | .component i _ _ _ => [i]

/-- All ids occurring anywhere in a forest, in depth-first order. -/
def treeIds : List TreeNode → List String
  | [] => []
  | n :: rest => nodeIds n ++ treeIds rest
end

/-- Whether any node anywhere in the forest carries the given id. -/
def idOccurs (tree : List TreeNode) (x : String) : Bool :=
  treeIds tree |>.contains x

mutual
/-- Whether any folder anywhere in a node's subtree carries the given id. -/
def folderIdOccursNode : TreeNode → String → Bool
  | .folder i _ ch _, x => i == x || folderIdOccurs ch x
  | .component _ _ _ _, _ => false

/-- Whether any folder anywhere in the forest carries the given id. -/
def folderIdOccurs : List TreeNode → String → Bool
  | [], _ => false
  | n :: rest, x => folderIdOccursNode n x || folderIdOccurs rest x
end

mutual
/-- Every folder at every depth of a node's subtree has an explicit
(present) `expanded` boolean. -/
def everyFolderExplicitNode : TreeNode → Bool
  | .folder _ _ ch ex => ex.isSome && everyFolderExplicit ch
  | .component _ _ _ _ => true

/-- Every folder at every depth of the forest has an explicit `expanded`
boolean. -/
def everyFolderExplicit : List TreeNode → Bool
  | [] => true
  | n :: rest => everyFolderExplicitNode n && everyFolderExplicit rest
end

/-- A prompt section (`Section` in `src/types/index.ts`).  Fields that are
optional in the TypeScript type are `Option`s; `openFlag` models the
source field `open` (a Lean keyword). -/
structure PSection where
  id : String
  name : String
  content : String
  type : CompType
  linkedComponentId : Option String
  originalContent : Option String
  openFlag : Bool
  dirty : Bool
  editingHeader : Option Bool
  editingHeaderTempName : Option String
  editingHeaderTempType : Option CompType
deriving DecidableEq, Repr

/-- A prompt (`Prompt` in `src/types/index.ts`): an ordered list of
sections plus a user-facing sequence number. -/
structure Prompt where
  id : String
  num : Int
  name : String
  sections : List PSection
deriving DecidableEq, Repr

/-- A `Partial<Omit<Section, "id">>` argument: each field of the update
object is either absent (`none`) or present with a value; for fields that
are themselves optional in `Section`, a present value may explicitly be
`undefined`, hence the nested `Option`. -/
structure SectionUpdate where
  name : Option String := none
  content : Option String := none
  type : Option CompType := none
  linkedComponentId : Option (Option String) := none
  originalContent : Option (Option String) := none
  openFlag : Option Bool := none
  dirty : Option Bool := none
  editingHeader : Option (Option Bool) := none
  editingHeaderTempName : Option (Option String) := none
  editingHeaderTempType : Option (Option CompType) := none
deriving DecidableEq, Repr

/-- The JavaScript spread `{ ...s, ...updates }`: every field present in
the update overrides the section's field, absent fields are kept. -/
def mergeSection (s : PSection) (u : SectionUpdate) : PSection where
  id := s.id
  name := u.name.getD s.name
  content := u.content.getD s.content
  type := u.type.getD s.type
  linkedComponentId := u.linkedComponentId.getD s.linkedComponentId
  originalContent := u.originalContent.getD s.originalContent
  openFlag := u.openFlag.getD s.openFlag
  dirty := u.dirty.getD s.dirty
  editingHeader := u.editingHeader.getD s.editingHeader
  editingHeaderTempName := u.editingHeaderTempName.getD s.editingHeaderTempName
  editingHeaderTempType := u.editingHeaderTempType.getD s.editingHeaderTempType

/-- `updateSection(promptId, sectionId, updates)` from
`src/contexts/PromptContext.tsx`: on the target section it computes
`{ ...s, ...updates, dirty: true }` — the spread merge followed by an
unconditional `dirty: true`; all other sections and prompts are kept. -/
def updateSection (prompts : List Prompt) (promptId sectionId : String)
    (updates : SectionUpdate) : List Prompt :=
  prompts.map fun p =>
    if p.id == promptId then
      { p with
        sections := p.sections.map fun s =>
          if s.id == sectionId then { mergeSection s updates with dirty := true } else s }
    else p

/-- JavaScript truthiness of an optional string field (`undefined` and
`""` are falsy). -/
def jsTruthyStr : Option String → Bool
  | some s => s != ""
  | none => false

/-- `updateSectionContent(sectionId, newContent)` from the monolithic
`src/App.tsx` (it maps over the active prompt's sections): the dirty flag
is derived — `sec.linkedComponentId ? newContent !== sec.originalContent
: false`. -/
def updateSectionContent (sections : List PSection) (sectionId : String)
    (newContent : String) : List PSection :=
  sections.map fun s =>
    if s.id == sectionId then
      let isDirty : Bool :=
        if jsTruthyStr s.linkedComponentId then some newContent != s.originalContent
        else false
      { s with content := newContent, dirty := isDirty }
    else s

/-- The local state owned by the prompt provider: the prompt collection
and the separately tracked active-prompt pointer. -/
structure PromptState where
  prompts : List Prompt
  activePromptId : Option String
deriving DecidableEq, Repr

/-- The deterministic fresh-id supply modelling the `uuid` package's
`v4()` (see the header comment). -/
def uuid (n : Nat) : String := "uuid-" ++ String.replicate n 'x'

/-- The section-copying loop of `duplicatePrompt`:
`sections.map(section => ({ ...section, id: uuidv4(), dirty: false,
editingHeader: false, editingHeaderTempName: undefined,
editingHeaderTempType: undefined }))`, with the id supply consumed in
section order starting at `ctr`. -/
def copySectionsFresh (ctr : Nat) : List PSection → List PSection
  | [] => []
  | s :: rest =>
      { s with
        id := uuid ctr
        dirty := false
        editingHeader := some false
        editingHeaderTempName := none
        editingHeaderTempType := none } :: copySectionsFresh (ctr + 1) rest

/-- `duplicatePrompt(promptIdToDuplicate)` from
`src/contexts/PromptContext.tsx`, modelled up to (and including) the
optimistic local update (`setPrompts`/`setActivePromptId`) that precedes
the POST: returns the duplicate (or `none` when the id does not resolve)
together with the new local state and the advanced id-supply counter.
The source draws the section ids first and the client id of the new
prompt afterwards. -/
def duplicatePrompt (st : PromptState) (promptIdToDuplicate : String) (ctr : Nat) :
    Option Prompt × PromptState × Nat :=
  match st.prompts.find? (fun p => p.id == promptIdToDuplicate) with
  | none => (none, st, ctr)
  | some promptToDuplicate =>
      let newSections := copySectionsFresh ctr promptToDuplicate.sections
      let tempClientId := uuid (ctr + promptToDuplicate.sections.length)
      let tempPrompt : Prompt :=
        { id := tempClientId
          name := promptToDuplicate.name ++ " (Copy)"
          sections := newSections
          num := Int.ofNat st.prompts.length + 1 }
      (some tempPrompt,
       { prompts := st.prompts ++ [tempPrompt], activePromptId := some tempClientId },
       ctr + promptToDuplicate.sections.length + 1)

/-- `deletePrompt(promptId)` from `src/contexts/PromptContext.tsx`:
filters the prompt out and, when it was active, points the active id at
`promptsRef.current[0]` — the head of the collection as it was *before*
the deletion (the ref still holds the old list at that moment). -/
def deletePrompt (st : PromptState) (promptId : String) : PromptState where
  prompts := st.prompts.filter fun p => p.id != promptId
  activePromptId :=
    if st.activePromptId == some promptId then
      match st.prompts with
      | [] => none
      | p :: _ => some p.id
    else st.activePromptId

/-- The reconciliation effect of the provider (`useEffect` at lines
129–135): once loading is done, an active id that no longer resolves is
replaced by the first prompt's id, and an empty collection forces the
active id to `null`. -/
def reconcileActivePrompt (st : PromptState) : PromptState :=
  match st.prompts with
  | [] => { prompts := [], activePromptId := none }
  | p :: rest =>
      if (p :: rest).any (fun q => some q.id == st.activePromptId) then st
      else { prompts := p :: rest, activePromptId := some p.id }

/-- `getCompiledPromptText(promptId)` from
`src/contexts/PromptContext.tsx`: `""` when the prompt does not resolve,
otherwise each section rendered as ``# ${s.type}: ${s.name}\n${s.content}``
joined with `"\n\n"` — unconditionally, with the raw lowercase type and no
system prompt. -/
def getCompiledPromptText (prompts : List Prompt) (promptId : String) : String :=
  match prompts.find? (fun p => p.id == promptId) with
  | none => ""
  | some p =>
      String.intercalate "\n\n"
        (p.sections.map fun s => "# " ++ s.type.toStr ++ ": " ++ s.name ++ "\n" ++ s.content)

/-- The compilation performed by `handleCopy` in the monolithic
`src/App.tsx` on the active prompt's sections: with markdown prompting
enabled, the configured system prompt followed by capitalized-type
headings (heading and content separated by a blank line); with it
disabled, just the section contents joined by blank lines. -/
def handleCopyText (markdownPromptingEnabled : Bool) (systemPrompt : String)
    (sections : List PSection) : String :=
  if markdownPromptingEnabled then
    systemPrompt ++ "\n\n" ++
      String.intercalate "\n\n"
        (sections.map fun s =>
          "# " ++ s.type.capitalized ++ ": " ++ s.name ++ "\n\n" ++ s.content)
  else
    String.intercalate "\n\n" (sections.map fun s => s.content)

/-- A raw id value as it may appear in an import file: a JSON number or a
string (`typeof node.id === 'number'` vs `'string'`). -/
inductive RawId where
  | num (n : Int)
  | str (s : String)
deriving DecidableEq, Repr

/-- A raw tree node of an import file, as far as `processNode` in
`src/utils/fileUtils.ts` inspects it.  Nodes whose shape makes
`processNode` throw (missing `type`/`name`, unknown `type`) are outside
this model; fields that `processNode` repairs with defaults (missing
`content`, unknown `componentType`, missing `children`) are `Option`s. -/
inductive RawNode where
  | folder (name : String) (id : Option RawId) (children : List RawNode)
  | component (name : String) (id : Option RawId) (content : Option String)
      (componentType : Option String)

/-- The `validComponentTypes.includes` check of `fileUtils.ts` followed by
the `"context"` fallback. -/
def parseCompType : Option String → CompType
  | some "instruction" => .instruction
  | some "role" => .role
  | some "context" => .context
  | some "format" => .format
  | some "style" => .style
  | _ => .context

/-- Whether a raw string is one of the five valid section/component type
strings (`validSectionTypes.includes`). -/
def isValidTypeStr (s : String) : Bool :=
  s == "instruction" || s == "role" || s == "context" || s == "format" || s == "style"

/-- `Map.set` on the numeric-to-string id translation map
(`oldNumericIdToNewStringIdMap`): overwrites an existing key, otherwise
appends. -/
def mapSet (m : List (Int × String)) (k : Int) (v : String) : List (Int × String) :=
  if m.any (fun e => e.1 == k) then m.map (fun e => if e.1 == k then (k, v) else e)
  else m ++ [(k, v)]

/-- `Map.get` on the translation map. -/
def mapGet (m : List (Int × String)) (k : Int) : Option String :=
  (m.find? (fun e => e.1 == k)).map (·.2)

/-- The state threaded through `parseLoadedData`: the id-supply counter
(one `uuidv4()` call per processed node/prompt/section, in program order)
and the numeric-to-string id translation map built while re-issuing ids. -/
structure ParseSt where
  ctr : Nat
  idMap : List (Int × String)
deriving DecidableEq, Repr

mutual
/-- `processNode` from `src/utils/fileUtils.ts`: draws a fresh id,
records `old numeric component id → new id` in the translation map, and
rebuilds the node (folders carry no `expanded` field in the output;
missing content defaults to `""`, invalid component types to
`"context"`). -/
def processNode (st : ParseSt) : RawNode → TreeNode × ParseSt
  | .folder name _ children =>
      let newId := uuid st.ctr
      let st1 : ParseSt := { st with ctr := st.ctr + 1 }
      let (children', st2) := processNodes st1 children
      (.folder newId name children' none, st2)
  | .component name id content componentType =>
      let newId := uuid st.ctr
      let idMap' := match id with
        | some (.num n) => mapSet st.idMap n newId
        | _ => st.idMap
      (.component newId name (content.getD "") (parseCompType componentType),
       { ctr := st.ctr + 1, idMap := idMap' })

/-- `treeToProcess.map(node => processNode(node))` with the shared
mutable state made explicit. -/
def processNodes (st : ParseSt) : List RawNode → List TreeNode × ParseSt
  | [] => ([], st)
  | n :: rest =>
      let (n', st1) := processNode st n
      let (rest', st2) := processNodes st1 rest
      (n' :: rest', st2)
end

/-- A raw prompt section as far as the prompt-mapping pass of
`parseLoadedData` inspects it; sections whose shape makes the pass throw
(non-string `name`/`content`) are outside the model. -/
structure RawSection where
  name : String
  content : String
  type : Option String
  linkedComponentId : Option RawId
  originalContent : Option String
  openFlag : Option Bool
  dirty : Option Bool
  editingHeader : Option Bool
  editingHeaderTempName : Option String
  editingHeaderTempType : Option String
deriving DecidableEq, Repr

/-- A raw prompt of an import file (name and sections are required or the
pass throws; `id`/`num` may be absent or numeric). -/
structure RawPrompt where
  name : String
  id : Option RawId
  num : Option Int
  sections : List RawSection
deriving DecidableEq, Repr

/-- Resolution of a raw `linkedComponentId` (lines 173–178 of
`fileUtils.ts`): a numeric value is looked up in the translation map, a
non-empty string is kept, anything else becomes `undefined`. -/
def resolveLink (idMap : List (Int × String)) : Option RawId → Option String
  | some (.num n) => mapGet idMap n
  | some (.str s) => if s.length > 0 then some s else none
  | none => none

/-- The section-mapping body of `parseLoadedData`: a fresh id, the
translation-map resolution of `linkedComponentId`, and the documented
defaults for the remaining fields (`originalContent || content`,
`open ?? true`, `dirty ?? false`, ...). -/
def parseSection (idMap : List (Int × String)) (ctr : Nat) (s : RawSection) : PSection :=
  let sectionType := parseCompType s.type
  { id := uuid ctr
    name := s.name
    content := s.content
    type := sectionType
    linkedComponentId := resolveLink idMap s.linkedComponentId
    originalContent := some (match s.originalContent with
      | some o => if o == "" then s.content else o
      | none => s.content)
    openFlag := s.openFlag.getD true
    dirty := s.dirty.getD false
    editingHeader := some (s.editingHeader.getD false)
    editingHeaderTempName := some (s.editingHeaderTempName.getD "")
    editingHeaderTempType := some (match s.editingHeaderTempType with
      | some t => if isValidTypeStr t then parseCompType (some t) else sectionType
      | none => sectionType) }

/-- The section list of one raw prompt, processed in order with the id
supply advancing per section. -/
def parseSections (idMap : List (Int × String)) (ctr : Nat) :
    List RawSection → List PSection × Nat
  | [] => ([], ctr)
  | s :: rest =>
      let s' := parseSection idMap ctr s
      let (rest', ctr') := parseSections idMap (ctr + 1) rest
      (s' :: rest', ctr')

/-- The prompt-mapping body of `parseLoadedData`: a fresh prompt id drawn
before the section ids, and `num: prompt.num || (typeof prompt.id ===
'number' ? prompt.id : 0)` (JavaScript `||`: a present but zero `num`
falls through). -/
def parsePrompt (idMap : List (Int × String)) (ctr : Nat) (p : RawPrompt) :
    Prompt × Nat :=
  let newPromptId := uuid ctr
  let fallback : Int := match p.id with
    | some (.num m) => m
    | _ => 0
  let num : Int := match p.num with
    | some n => if n == 0 then fallback else n
    | none => fallback
  let (sections', ctr') := parseSections idMap (ctr + 1) p.sections
  ({ id := newPromptId, name := p.name, num := num, sections := sections' }, ctr')

/-- `promptsToProcess.map(...)` with the id supply made explicit. -/
def parsePrompts (idMap : List (Int × String)) (ctr : Nat) :
    List RawPrompt → List Prompt × Nat
  | [] => ([], ctr)
  | p :: rest =>
      let (p', ctr1) := parsePrompt idMap ctr p
      let (rest', ctr2) := parsePrompts idMap ctr1 rest
      (p' :: rest', ctr2)

/-- A well-shaped import file: either the current object format
`{ tree, prompts }` or the legacy bare array of tree nodes (in which case
`promptsToProcess = []` — a legacy array file carries no prompts). -/
inductive RawData where
  | obj (tree : List RawNode) (prompts : List RawPrompt)
  | arr (tree : List RawNode)

/-- `parseLoadedData` from `src/utils/fileUtils.ts` on a well-shaped
file: the tree pass (building the numeric-id translation map), then the
prompt pass resolving `linkedComponentId` through that map. -/
def parseLoadedData : RawData → List TreeNode × List Prompt
  | .obj tree prompts =>
      let (tree', st) := processNodes ⟨0, []⟩ tree
      let (prompts', _) := parsePrompts st.idMap st.ctr prompts
      (tree', prompts')
  | .arr tree =>
      let (tree', _) := processNodes ⟨0, []⟩ tree
      (tree', [])

mutual
/-- How many components anywhere in a raw node's subtree carry the given
numeric id. -/
def countCompNumNode : RawNode → Int → Nat
  | .folder _ _ children, k => countCompNum children k
  | .component _ id _ _, k => if id == some (.num k) then 1 else 0

/-- How many components anywhere in a raw forest carry the given numeric
id. -/
def countCompNum : List RawNode → Int → Nat
  | [], _ => 0
  | n :: rest, k => countCompNumNode n k + countCompNum rest k
end

/-- The first component (in the traversal order of `processNode`) of a
raw forest carrying the given numeric id. -/
def findRawCompByNum : List RawNode → Int → Option RawNode
  | [], _ => none
  | .folder _ _ children :: rest, k =>
      match findRawCompByNum children k with
      | some c => some c
      | none => findRawCompByNum rest k
  | .component name id content ct :: rest, k =>
      if id == some (.num k) then some (.component name id content ct)
      else findRawCompByNum rest k

/-- All components of a parsed forest, flattened in depth-first order as
`(id, name, content, componentType)` tuples. -/
def componentEntries : List TreeNode → List (String × String × String × CompType)
  | [] => []
  | .folder _ _ ch _ :: rest => componentEntries ch ++ componentEntries rest
  | .component i nm c t :: rest => (i, nm, c, t) :: componentEntries rest

/-- The section at prompt index `i`, section index `j` of a prompt list. -/
def sectionAt (prompts : List Prompt) (i j : Nat) : Option PSection :=
  match prompts.get? i with
  | none => none
  | some p => p.sections.get? j

/-- The raw section at prompt index `i`, section index `j` of a raw
prompt list. -/
def rawSectionAt (prompts : List RawPrompt) (i j : Nat) : Option RawSection :=
  match prompts.get? i with
  | none => none
  | some p => p.sections.get? j

/-- Structural induction over forests, giving the inductive hypothesis
both for a head folder's children and for the tail. -/
theorem forestInduction {motive : List TreeNode → Prop} (nil : motive [])
    (consFolder : ∀ i nm ch ex rest, motive ch → motive rest →
      motive (.folder i nm ch ex :: rest))
    (consComp : ∀ i nm c ty rest, motive rest →
      motive (.component i nm c ty :: rest)) :
    ∀ t, motive t
  | [] => nil
  | .folder i nm ch ex :: rest =>
      consFolder i nm ch ex rest
        (forestInduction nil consFolder consComp ch)
        (forestInduction nil consFolder consComp rest)
  | .component i nm c ty :: rest =>
      consComp i nm c ty rest (forestInduction nil consFolder consComp rest)

/-- The node extracted by `findAndRemove` carries the requested id. -/
theorem findAndRemove_id (t : List TreeNode) (x : String) :
    ∀ n t', findAndRemove t x = some (n, t') → n.id = x := by
  induction t using forestInduction with
  | nil => intro n t' h; simp [findAndRemove] at h
  | consFolder i nm ch ex rest ihch ihrest =>
      intro n t' h
      simp only [findAndRemove] at h
      split at h
      next hc => cases h; exact eq_of_beq hc
      next hc =>
        split at h
        next found ch' hch => cases h; exact ihch _ _ hch
        next hch =>
          split at h
          next found rest' hrest => cases h; exact ihrest _ _ hrest
          next => cases h
  | consComp i nm c ty rest ihrest =>
      intro n t' h
      simp only [findAndRemove] at h
      split at h
      next hc => cases h; exact eq_of_beq hc
      next hc =>
        split at h
        next found rest' hrest => cases h; exact ihrest _ _ hrest
        next => cases h

theorem TreeNode.id_folder (i nm : String) (ch : List TreeNode) (ex : Option Bool) :
    (TreeNode.folder i nm ch ex).id = i := rfl

theorem TreeNode.id_component (i nm c : String) (ty : CompType) :
    (TreeNode.component i nm c ty).id = i := rfl

/-- A node's own id is among its subtree's ids. -/
theorem id_mem_nodeIds (n : TreeNode) : n.id ∈ nodeIds n := by
  cases n <;> simp [nodeIds, TreeNode.id]

/-- `idOccurs` is membership in the flattened id list. -/
theorem idOccurs_iff {t : List TreeNode} {x : String} :
    idOccurs t x = true ↔ x ∈ treeIds t := by
  simp [idOccurs, List.contains]

/-- `findNodeById` fails exactly when the id occurs nowhere in the
forest. -/
theorem findNodeById_eq_none_iff (t : List TreeNode) (x : String) :
    findNodeById t x = none ↔ x ∉ treeIds t := by
  induction t using forestInduction with
  | nil => simp [findNodeById, treeIds]
  | consFolder i nm ch ex rest ihch ihrest =>
      simp only [findNodeById, treeIds, nodeIds, List.mem_append, List.mem_cons,
        TreeNode.id_folder]
      by_cases hid : i = x
      · subst hid; simp
      · rcases hch : findNodeById ch x with _ | found
        · have hxch : x ∉ treeIds ch := (ihch).mp hch
          simp [beq_iff_eq, hid, hch, hxch, ihrest, Ne.symm hid]
        · have hxch : x ∈ treeIds ch := by
            by_contra hx
            rw [← ihch] at hx
            simp [hx] at hch
          simp [beq_iff_eq, hid, hch, hxch]
  | consComp i nm c ty rest ihrest =>
      simp only [findNodeById, treeIds, nodeIds, List.mem_append, List.mem_cons,
        TreeNode.id_component, List.mem_singleton]
      by_cases hid : i = x
      · subst hid; simp
      · simp [beq_iff_eq, hid, ihrest, Ne.symm hid]

/-- A node returned by `findNodeById` carries the requested id. -/
theorem findNodeById_id (t : List TreeNode) (x : String) :
    ∀ m, findNodeById t x = some m → m.id = x := by
  induction t using forestInduction with
  | nil => intro m h; simp [findNodeById] at h
  | consFolder i nm ch ex rest ihch ihrest =>
      intro m h
      simp only [findNodeById] at h
      split at h
      next hc => cases h; exact eq_of_beq hc
      next hc =>
        split at h
        next found hch => cases h; exact ihch _ hch
        next hch => exact ihrest _ h
  | consComp i nm c ty rest ihrest =>
      intro m h
      simp only [findNodeById] at h
      split at h
      next hc => cases h; exact eq_of_beq hc
      next hc => exact ihrest _ h

/-- `findAndRemove` fails exactly when `findNodeById` does. -/
theorem findAndRemove_eq_none_iff (t : List TreeNode) (x : String) :
    findAndRemove t x = none ↔ findNodeById t x = none := by
  induction t using forestInduction with
  | nil => simp [findAndRemove, findNodeById]
  | consFolder i nm ch ex rest ihch ihrest =>
      simp only [findAndRemove, findNodeById]
      by_cases hc : (TreeNode.folder i nm ch ex).id == x
      · simp [hc]
      · simp only [Bool.not_eq_true] at hc
        simp only [hc, Bool.false_eq_true, if_false]
        rcases hch : findAndRemove ch x with _ | ⟨found, ch'⟩ <;>
          rcases hch2 : findNodeById ch x with _ | found2
        · rcases hrest : findAndRemove rest x with _ | ⟨f3, r3⟩
          · simp [ihrest.mp hrest]
          · have : findNodeById rest x ≠ none := fun h2 => by
              rw [← ihrest] at h2; simp [h2] at hrest
            rcases h2 : findNodeById rest x with _ | f2
            · exact absurd h2 this
            · simp
        · rw [ihch] at hch; simp [hch] at hch2
        · rw [← ihch] at hch2; simp [hch2] at hch
        · simp
  | consComp i nm c ty rest ihrest =>
      simp only [findAndRemove, findNodeById]
      by_cases hc : (TreeNode.component i nm c ty).id == x
      · simp [hc]
      · simp only [Bool.not_eq_true] at hc
        simp only [hc, Bool.false_eq_true, if_false]
        rcases hrest : findAndRemove rest x with _ | ⟨found, rest'⟩
        · simp [ihrest.mp hrest]
        · have : findNodeById rest x ≠ none := fun h2 => by
            rw [← ihrest] at h2; simp [h2] at hrest
          rcases h2 : findNodeById rest x with _ | f2
          · exact absurd h2 this
          · simp

/-- `findAndRemove` extracts exactly the node `findNodeById` would find
(both traverse node, then children, then right siblings). -/
theorem findAndRemove_findNodeById (t : List TreeNode) (x : String) :
    ∀ n t', findAndRemove t x = some (n, t') → findNodeById t x = some n := by
  induction t using forestInduction with
  | nil => intro n t' h; simp [findAndRemove] at h
  | consFolder i nm ch ex rest ihch ihrest =>
      intro n t' h
      simp only [findAndRemove] at h
      simp only [findNodeById]
      split at h
      next hc => cases h; simp [hc]
      next hc =>
        simp only [hc, Bool.false_eq_true, if_false]
        split at h
        next found ch' hch => cases h; simp [ihch _ _ hch]
        next hch =>
          have hch0 : findNodeById ch x = none :=
            (findAndRemove_eq_none_iff ch x).mp hch
          split at h
          next found rest' hrest => cases h; simp [hch0, ihrest _ _ hrest]
          next => cases h
  | consComp i nm c ty rest ihrest =>
      intro n t' h
      simp only [findAndRemove] at h
      simp only [findNodeById]
      split at h
      next hc => cases h; simp [hc]
      next hc =>
        simp only [hc, Bool.false_eq_true, if_false]
        split at h
        next found rest' hrest => cases h; exact ihrest _ _ hrest
        next => cases h

/-- Removing one subtree with `findAndRemove` splits the id multiset:
every id's multiplicity in the original forest is its multiplicity in the
removed subtree plus its multiplicity in the remainder. -/
theorem findAndRemove_count (t : List TreeNode) (x : String) :
    ∀ n t' a, findAndRemove t x = some (n, t') →
      (treeIds t).count a = (nodeIds n).count a + (treeIds t').count a := by
  induction t using forestInduction with
  | nil => intro n t' a h; simp [findAndRemove] at h
  | consFolder i nm ch ex rest ihch ihrest =>
      intro n t' a h
      simp only [findAndRemove] at h
      split at h
      next hc =>
        cases h
        simp only [treeIds, nodeIds, List.count_append, List.count_cons]
      next hc =>
        split at h
        next found ch' hch =>
          cases h
          have := ihch _ _ a hch
          simp only [treeIds, nodeIds, List.count_append, List.count_cons]
          omega
        next hch =>
          split at h
          next found rest' hrest =>
            cases h
            have := ihrest _ _ a hrest
            simp only [treeIds, nodeIds, List.count_append, List.count_cons]
            omega
          next => cases h
  | consComp i nm c ty rest ihrest =>
      intro n t' a h
      simp only [findAndRemove] at h
      split at h
      next hc =>
        cases h
        simp only [treeIds, nodeIds, List.count_append, List.count_cons]
      next hc =>
        split at h
        next found rest' hrest =>
          cases h
          have := ihrest _ _ a hrest
          simp only [treeIds, nodeIds, List.count_append, List.count_cons]
          omega
        next => cases h

/-- If the id occurs in the forest, `findAndRemove` succeeds. -/
theorem findAndRemove_isSome (t : List TreeNode) (x : String) (h : x ∈ treeIds t) :
    ∃ n t', findAndRemove t x = some (n, t') := by
  rcases hfr : findAndRemove t x with _ | ⟨n, t'⟩
  · rw [findAndRemove_eq_none_iff, findNodeById_eq_none_iff] at hfr
    exact absurd h hfr
  · exact ⟨n, t', rfl⟩

mutual
/-- A successful `insertIntoTarget` implies a folder with the target id
occurs in the node's subtree or further right. -/
theorem insertIntoTargetNode_some_occurs (n : TreeNode) (x : String) (node : TreeNode) :
    ∀ rest r, insertIntoTarget (n :: rest) x node = some r →
      folderIdOccursNode n x = true ∨ insertIntoTarget rest x node ≠ none := by
  intro rest r h
  cases n with
  | folder i nm ch ex =>
      simp only [insertIntoTarget] at h
      split at h
      next hc => exact Or.inl (by simp [folderIdOccursNode, hc])
      next hc =>
        split at h
        next ch' hch =>
          exact Or.inl (by
            simp only [folderIdOccursNode, Bool.or_eq_true]
            exact Or.inr (insertIntoTarget_some_occurs ch x node ch' hch))
        next hch =>
          split at h
          next rest' hrest => exact Or.inr (by simp [hrest])
          next => cases h
  | component i nm c ty =>
      simp only [insertIntoTarget] at h
      split at h
      next rest' hrest => exact Or.inr (by simp [hrest])
      next => cases h

/-- A successful `insertIntoTarget` implies a folder with the target id
occurs in the forest. -/
theorem insertIntoTarget_some_occurs (t : List TreeNode) (x : String) (node : TreeNode) :
    ∀ r, insertIntoTarget t x node = some r → folderIdOccurs t x = true := by
  intro r h
  match t with
  | [] => simp [insertIntoTarget] at h
  | n :: rest =>
      rcases insertIntoTargetNode_some_occurs n x node rest r h with hn | hrest
      · simp [folderIdOccurs, hn]
      · rcases hr : insertIntoTarget rest x node with _ | r'
        · exact absurd hr hrest
        · simp [folderIdOccurs, insertIntoTarget_some_occurs rest x node r' hr]
end

mutual
/-- A folder id occurring in a node's subtree occurs among its ids. -/
theorem folderIdOccursNode_mem (n : TreeNode) (x : String) :
    folderIdOccursNode n x = true → x ∈ nodeIds n := by
  intro h
  cases n with
  | folder i nm ch ex =>
      simp only [folderIdOccursNode, Bool.or_eq_true, beq_iff_eq] at h
      rcases h with h | h
      · simp [nodeIds, h]
      · simp only [nodeIds, List.mem_cons]
        exact Or.inr (folderIdOccurs_mem ch x h)
  | component i nm c ty => simp [folderIdOccursNode] at h

/-- A folder id occurring in a forest occurs among its ids. -/
theorem folderIdOccurs_mem (t : List TreeNode) (x : String) :
    folderIdOccurs t x = true → x ∈ treeIds t := by
  intro h
  match t with
  | [] => simp [folderIdOccurs] at h
  | n :: rest =>
      simp only [folderIdOccurs, Bool.or_eq_true] at h
      simp only [treeIds, List.mem_append]
      rcases h with h | h
      · exact Or.inl (folderIdOccursNode_mem n x h)
      · exact Or.inr (folderIdOccurs_mem rest x h)
end

mutual
/-- `isDescendant` only inspects ids: a descendant's id occurs among the
ancestor's subtree ids. -/
theorem isDescendant_mem (d : TreeNode) (a : TreeNode) :
    isDescendant d a = true → d.id ∈ nodeIds a := by
  intro h
  cases a with
  | component i nm c ty => simp [isDescendant] at h
  | folder i nm ch ex =>
      simp only [isDescendant] at h
      simp only [nodeIds, List.mem_cons]
      exact Or.inr (isDescendantList_mem d ch h)

/-- List form of `isDescendant_mem`. -/
theorem isDescendantList_mem (d : TreeNode) (l : List TreeNode) :
    isDescendantList d l = true → d.id ∈ treeIds l := by
  intro h
  match l with
  | [] => simp [isDescendantList] at h
  | c :: rest =>
      simp only [isDescendantList, Bool.or_eq_true, Bool.and_eq_true, beq_iff_eq] at h
      simp only [treeIds, List.mem_append]
      rcases h with (h | ⟨_, h⟩) | h
      · exact Or.inl (h ▸ id_mem_nodeIds c)
      · exact Or.inl (isDescendant_mem d c h)
      · exact Or.inr (isDescendantList_mem d rest h)
end

/-- If no node with id `x` remains, `insertIntoTarget` fails. -/
theorem insertIntoTarget_none_of_not_mem (t : List TreeNode) (x : String)
    (node : TreeNode) (h : x ∉ treeIds t) : insertIntoTarget t x node = none := by
  rcases hr : insertIntoTarget t x node with _ | r
  · rfl
  · exact absurd (folderIdOccurs_mem t x (insertIntoTarget_some_occurs t x node r hr)) h

/-- Core no-op lemma: when the insertion target's id lives inside the
removed subtree of a forest with unique ids, `moveNodeInTree` returns the
original forest. -/
theorem moveNodeInTree_noop_of_target_in_removed (F : List TreeNode) (a b : String)
    (hnodup : (treeIds F).Nodup) (n : TreeNode) (F' : List TreeNode)
    (hfr : findAndRemove F a = some (n, F')) (hb : b ∈ nodeIds n) :
    moveNodeInTree F a b = F := by
  have hcount := findAndRemove_count F a n F' b hfr
  have h1 : 0 < (nodeIds n).count b := List.count_pos_iff.mpr hb
  have hle : (treeIds F).count b ≤ 1 := List.nodup_iff_count_le_one.mp hnodup b
  have h0 : (treeIds F').count b = 0 := by omega
  have hnot : b ∉ treeIds F' := List.count_eq_zero.mp h0
  unfold moveNodeInTree
  rw [hfr]
  simp only [insertIntoTarget_none_of_not_mem F' b n hnot]

/-- C1: for every forest with unique node ids, if the node with id `b` is
a descendant of the node with id `a` (`isDescendant` returns true), then
`moveNodeInTree` attempting to move `a` under `b` returns the forest
unchanged: the removal phase extracts `a`'s whole subtree (which contains
the only occurrence of `b`), so the insertion phase cannot find the
target and the function falls back to the original forest — the
cycle-safety invariant holds even though `moveNodeInTree` performs no
`isDescendant` check itself. -/
theorem moveNodeInTree_cycle_safe (F : List TreeNode) (a b : String)
    (hnodup : (treeIds F).Nodup) (na nb : TreeNode)
    (ha : findNodeById F a = some na) (hb : findNodeById F b = some nb)
    (hdesc : isDescendant nb na = true) :
    moveNodeInTree F a b = F := by
  have hmem : a ∈ treeIds F := by
    by_contra hx
    rw [← findNodeById_eq_none_iff] at hx
    simp [hx] at ha
  obtain ⟨n, F', hfr⟩ := findAndRemove_isSome F a hmem
  have hna : n = na := by
    have := findAndRemove_findNodeById F a n F' hfr
    rw [this] at ha
    exact Option.some.inj ha
  have hbid : nb.id = b := findNodeById_id F b nb hb
  have hbmem : b ∈ nodeIds n := by
    rw [hna]
    exact hbid ▸ isDescendant_mem nb na hdesc
  exact moveNodeInTree_noop_of_target_in_removed F a b hnodup n F' hfr hbmem

/-- Concrete instance for C1: a folder `a` containing component `b`;
moving `a` under its own descendant `b` leaves the forest unchanged. -/
theorem moveNodeInTree_cycle_safe_witness :
    moveNodeInTree [.folder "a" "A" [.component "b" "B" "" .context] none] "a" "b"
      = [.folder "a" "A" [.component "b" "B" "" .context] none] :=
  moveNodeInTree_cycle_safe _ "a" "b" (by decide)
    (.folder "a" "A" [.component "b" "B" "" .context] none)
    (.component "b" "B" "" .context)
    (by simp [findNodeById, TreeNode.id])
    (by simp [findNodeById, TreeNode.id])
    (by simp [isDescendant, isDescendantList, TreeNode.id])

/-- C10: in a forest with unique node ids, the self-targeted move
`moveNodeInTree(F, x, x)` is a no-op: once the removal phase has
extracted the node with id `x`, no node with that id remains, so the
insertion phase fails and the original forest is returned — a node can
never be moved into itself even though no explicit self-move check
exists. -/
theorem moveNodeInTree_self_noop (F : List TreeNode) (x : String)
    (hnodup : (treeIds F).Nodup) (hocc : idOccurs F x = true) :
    moveNodeInTree F x x = F := by
  have hmem : x ∈ treeIds F := idOccurs_iff.mp hocc
  obtain ⟨n, F', hfr⟩ := findAndRemove_isSome F x hmem
  have hid : n.id = x := findAndRemove_id F x n F' hfr
  exact moveNodeInTree_noop_of_target_in_removed F x x hnodup n F' hfr
    (hid ▸ id_mem_nodeIds n)

/-- Concrete instance for C10: a self-targeted move of a nested folder is
a no-op. -/
theorem moveNodeInTree_self_noop_witness :
    moveNodeInTree
      [.folder "root" "Components" [.folder "f" "F" [] (some true)] (some true)]
      "f" "f"
      = [.folder "root" "Components" [.folder "f" "F" [] (some true)] (some true)] :=
  moveNodeInTree_self_noop _ "f" (by decide) (by decide)

/-- With unique ids, a folder id that occurs somewhere is what
`findNodeById` resolves to — and the resolved node is a folder. -/
theorem findNodeById_isFolder_of_folderIdOccurs (t : List TreeNode) (x : String) :
    (treeIds t).Nodup → folderIdOccurs t x = true →
    ∃ m, findNodeById t x = some m ∧ m.isFolder = true := by
  induction t using forestInduction with
  | nil => intro _ h; simp [folderIdOccurs] at h
  | consFolder i nm ch ex rest ihch ihrest =>
      intro hnodup hocc
      simp only [treeIds, nodeIds, List.cons_append, List.nodup_cons,
        List.nodup_append, List.mem_append] at hnodup
      obtain ⟨hinot, hchnd, hrestnd, hdisj⟩ := hnodup
      simp only [folderIdOccurs, folderIdOccursNode, Bool.or_eq_true, beq_iff_eq] at hocc
      by_cases hix : i = x
      · exact ⟨.folder i nm ch ex, by simp [findNodeById, TreeNode.id, hix], rfl⟩
      · rcases hocc with (h | h) | h
        · exact absurd h hix
        · obtain ⟨m, hm, hmf⟩ := ihch hchnd h
          refine ⟨m, ?_, hmf⟩
          simp [findNodeById, TreeNode.id, hix, hm]
        · have hxrest : x ∈ treeIds rest := folderIdOccurs_mem rest x h
          have hxch : x ∉ treeIds ch := fun hx => hdisj hx hxrest
          have hchnone : findNodeById ch x = none :=
            (findNodeById_eq_none_iff ch x).mpr hxch
          obtain ⟨m, hm, hmf⟩ := ihrest hrestnd h
          refine ⟨m, ?_, hmf⟩
          simp [findNodeById, TreeNode.id, hix, hchnone, hm]
  | consComp i nm c ty rest ihrest =>
      intro hnodup hocc
      simp only [treeIds, nodeIds, List.singleton_append, List.nodup_cons] at hnodup
      obtain ⟨hinot, hrestnd⟩ := hnodup
      simp only [folderIdOccurs, folderIdOccursNode, Bool.false_or] at hocc
      have hxrest : x ∈ treeIds rest := folderIdOccurs_mem rest x hocc
      have hix : i ≠ x := fun hx => hinot (hx ▸ hxrest)
      obtain ⟨m, hm, hmf⟩ := ihrest hrestnd hocc
      refine ⟨m, ?_, hmf⟩
      simp [findNodeById, TreeNode.id, hix, hm]

/-- The remainder forest after `findAndRemove` keeps ids unique. -/
theorem findAndRemove_nodup (F : List TreeNode) (d : String) (n : TreeNode)
    (F' : List TreeNode) (hnodup : (treeIds F).Nodup)
    (hfr : findAndRemove F d = some (n, F')) : (treeIds F').Nodup := by
  rw [List.nodup_iff_count_le_one] at hnodup ⊢
  intro a
  have := findAndRemove_count F d n F' a hfr
  have := hnodup a
  omega

/-- C5: `moveNodeInTree` fails closed — it returns the original forest
unchanged (and, being a total function, never throws) when (i) the
dragged id does not resolve to any node, (ii) the target id does not
resolve to any node in the forest remaining after the dragged node's
removal, or (iii) the ids are unique and the target id resolves to a
node that is not a folder. -/
theorem moveNodeInTree_fails_closed (F : List TreeNode) (d t : String) :
    (findNodeById F d = none → moveNodeInTree F d t = F)
  ∧ (∀ n F', findAndRemove F d = some (n, F') → findNodeById F' t = none →
      moveNodeInTree F d t = F)
  ∧ ((treeIds F).Nodup → ∀ n F' m, findAndRemove F d = some (n, F') →
      findNodeById F' t = some m → m.isFolder = false → moveNodeInTree F d t = F) := by
  refine ⟨?_, ?_, ?_⟩
  · intro h
    have hfr : findAndRemove F d = none := (findAndRemove_eq_none_iff F d).mpr h
    unfold moveNodeInTree
    rw [hfr]
  · intro n F' hfr hnone
    have hmem : t ∉ treeIds F' := (findNodeById_eq_none_iff F' t).mp hnone
    unfold moveNodeInTree
    rw [hfr]
    simp only [insertIntoTarget_none_of_not_mem F' t n hmem]
  · intro hnodup n F' m hfr hsome hnotf
    have hnd' : (treeIds F').Nodup := findAndRemove_nodup F d n F' hnodup hfr
    have hnone : insertIntoTarget F' t n = none := by
      rcases hr : insertIntoTarget F' t n with _ | r
      · rfl
      · have hocc := insertIntoTarget_some_occurs F' t n r hr
        obtain ⟨m', hm', hmf'⟩ := findNodeById_isFolder_of_folderIdOccurs F' t hnd' hocc
        rw [hsome] at hm'
        cases Option.some.inj hm'
        rw [hmf'] at hnotf
        cases hnotf
    unfold moveNodeInTree
    rw [hfr]
    simp only [hnone]

/-- Concrete instance for C5: dragging an id absent from the forest is a
silent no-op. -/
theorem moveNodeInTree_fails_closed_witness :
    moveNodeInTree [.folder "root" "Components" [] (some true)] "ghost" "root"
      = [.folder "root" "Components" [] (some true)] :=
  (moveNodeInTree_fails_closed [.folder "root" "Components" [] (some true)]
      "ghost" "root").1 (by simp [findNodeById, TreeNode.id])

/-- Unfolding lemma for `removeNode` on a non-empty forest. -/
theorem removeNode_cons (n : TreeNode) (rest : List TreeNode) (x : String) :
    removeNode (n :: rest) x =
      if n.id == x then removeNode rest x
      else (match n with
            | .folder i nm ch ex => .folder i nm (removeNode ch x) ex
            | c => c) :: removeNode rest x := by
  conv_lhs => rw [removeNode.eq_def]

/-- Unfolding lemma for `insertNode` on a non-empty forest. -/
theorem insertNode_cons (n : TreeNode) (rest : List TreeNode) (pid : String)
    (w : TreeNode) :
    insertNode (n :: rest) pid w =
      (match n with
       | .folder i nm ch ex =>
           if i == pid then TreeNode.folder i nm (ch ++ [w]) ex
           else TreeNode.folder i nm (insertNode ch pid w) ex
       | c => c) :: insertNode rest pid w := by
  conv_lhs => rw [insertNode.eq_def]

/-- Removing a node's own id from the singleton list of that node yields
the empty list. -/
theorem removeNode_singleton_self (n : TreeNode) : removeNode [n] n.id = [] := by
  rw [removeNode_cons]
  simp [removeNode]

/-- `removeNode` distributes over list append. -/
theorem removeNode_append (l1 l2 : List TreeNode) (x : String) :
    removeNode (l1 ++ l2) x = removeNode l1 x ++ removeNode l2 x := by
  induction l1 with
  | nil => simp [removeNode]
  | cons n rest ih =>
      rw [List.cons_append, removeNode_cons, removeNode_cons]
      by_cases h : n.id == x
      · simp [h, ih]
      · simp only [Bool.not_eq_true] at h
        simp [h, ih]

/-- Removing an id that occurs nowhere leaves the forest unchanged. -/
theorem removeNode_of_not_mem (t : List TreeNode) (x : String) :
    x ∉ treeIds t → removeNode t x = t := by
  induction t using forestInduction with
  | nil => intro _; simp [removeNode]
  | consFolder i nm ch ex rest ihch ihrest =>
      intro h
      simp only [treeIds, nodeIds, List.cons_append, List.mem_cons, List.mem_append] at h
      push_neg at h
      obtain ⟨hix, hch, hrest⟩ := h
      rw [removeNode_cons, if_neg (by simp [TreeNode.id, Ne.symm hix])]
      simp [ihch hch, ihrest hrest]
  | consComp i nm c ty rest ihrest =>
      intro h
      simp only [treeIds, nodeIds, List.singleton_append, List.mem_cons] at h
      push_neg at h
      obtain ⟨hix, hrest⟩ := h
      rw [removeNode_cons, if_neg (by simp [TreeNode.id, Ne.symm hix])]
      simp [ihrest hrest]

/-- Core of C6: inserting a node whose id is fresh and then removing that
id restores the original forest exactly. -/
theorem removeNode_insertNode_of_fresh (F : List TreeNode) (pid : String)
    (n : TreeNode) (hfresh : n.id ∉ treeIds F) :
    removeNode (insertNode F pid n) n.id = F := by
  induction F using forestInduction with
  | nil => simp [insertNode, removeNode]
  | consFolder i nm ch ex rest ihch ihrest =>
      simp only [treeIds, nodeIds, List.cons_append, List.mem_cons,
        List.mem_append] at hfresh
      push_neg at hfresh
      obtain ⟨hix, hch, hrest⟩ := hfresh
      rw [insertNode_cons]
      by_cases hpid : i == pid
      · simp only [hpid, if_true]
        rw [removeNode_cons,
          if_neg (by rw [TreeNode.id_folder]; simp [Ne.symm hix])]
        simp [removeNode_append, removeNode_of_not_mem ch n.id hch,
          removeNode_singleton_self, ihrest hrest]
      · simp only [Bool.not_eq_true] at hpid
        simp only [hpid, Bool.false_eq_true, if_false]
        rw [removeNode_cons,
          if_neg (by rw [TreeNode.id_folder]; simp [Ne.symm hix])]
        simp [ihch hch, ihrest hrest]
  | consComp i nm c ty rest ihrest =>
      simp only [treeIds, nodeIds, List.singleton_append, List.mem_cons] at hfresh
      push_neg at hfresh
      obtain ⟨hix, hrest⟩ := hfresh
      rw [insertNode_cons]
      rw [removeNode_cons,
        if_neg (by rw [TreeNode.id_component]; simp [Ne.symm hix])]
      simp [ihrest hrest]

/-- C6: for a folder `parentId` present in the forest and a fresh node
`n` (its id occurs nowhere in `F`), `removeNode(insertNode(F, parentId,
n), n.id)` is deep-equal to `F` — insert and remove are inverses, leaving
no orphan nodes behind. -/
theorem removeNode_insertNode (F : List TreeNode) (parentId : String)
    (n p : TreeNode) (hfind : findNodeById F parentId = some p)
    (hp : p.isFolder = true) (hfresh : idOccurs F n.id = false) :
    removeNode (insertNode F parentId n) n.id = F :=
  removeNode_insertNode_of_fresh F parentId n
    (by rw [← idOccurs_iff, hfresh]; simp)

/-- Concrete instance for C6: inserting a fresh component under the root
folder and removing it restores the original forest. -/
theorem removeNode_insertNode_witness :
    removeNode
      (insertNode [.folder "root" "Components" [] (some true)] "root"
        (.component "c1" "Greeting" "Hello" .role)) "c1"
      = [.folder "root" "Components" [] (some true)] :=
  removeNode_insertNode _ "root" (.component "c1" "Greeting" "Hello" .role)
    (.folder "root" "Components" [] (some true))
    (by simp [findNodeById, TreeNode.id]) (by rfl) (by decide)

/-- `normalizeNode` preserves the node id. -/
theorem normalizeNode_id (d : Bool) (n : TreeNode) : (normalizeNode d n).id = n.id := by
  cases n <;> simp [normalizeNode, TreeNode.id]

mutual
/-- After normalization, every folder in a node's subtree has an explicit
`expanded` boolean. -/
theorem everyFolderExplicitNode_normalize (d : Bool) (n : TreeNode) :
    everyFolderExplicitNode (normalizeNode d n) = true := by
  cases n with
  | folder i nm ch ex =>
      simp only [normalizeNode, everyFolderExplicitNode, Option.isSome_some,
        Bool.true_and]
      exact everyFolderExplicit_normalize d ch
  | component i nm c ty => simp [normalizeNode, everyFolderExplicitNode]

/-- After normalization, every folder in the forest has an explicit
`expanded` boolean. -/
theorem everyFolderExplicit_normalize (d : Bool) (t : List TreeNode) :
    everyFolderExplicit (normalizeExpansionStateCore t d) = true := by
  match t with
  | [] => simp [normalizeExpansionStateCore, everyFolderExplicit]
  | n :: rest =>
      simp only [normalizeExpansionStateCore, everyFolderExplicit, Bool.and_eq_true]
      exact ⟨everyFolderExplicitNode_normalize d n, everyFolderExplicit_normalize d rest⟩
end

mutual
/-- Normalization changes nothing on a node whose folders already all
carry an explicit `expanded` boolean. -/
theorem normalizeNode_of_explicit (d : Bool) (n : TreeNode)
    (h : everyFolderExplicitNode n = true) : normalizeNode d n = n := by
  cases n with
  | folder i nm ch ex =>
      simp only [everyFolderExplicitNode, Bool.and_eq_true, Option.isSome_iff_exists] at h
      obtain ⟨⟨b, hb⟩, hch⟩ := h
      simp [normalizeNode, hb, normalize_of_explicit d ch hch]
  | component i nm c ty => simp [normalizeNode]

/-- Normalization changes nothing on a forest whose folders already all
carry an explicit `expanded` boolean. -/
theorem normalize_of_explicit (d : Bool) (t : List TreeNode)
    (h : everyFolderExplicit t = true) : normalizeExpansionStateCore t d = t := by
  match t with
  | [] => simp [normalizeExpansionStateCore]
  | n :: rest =>
      simp only [everyFolderExplicit, Bool.and_eq_true] at h
      simp [normalizeExpansionStateCore, normalizeNode_of_explicit d n h.1,
        normalize_of_explicit d rest h.2]
end

/-- `findNodeById` commutes with normalization: looking an id up in the
normalized forest finds exactly the normalized image of the node the
original lookup finds. -/
theorem findNodeById_normalize (t : List TreeNode) (d : Bool) (x : String) :
    findNodeById (normalizeExpansionStateCore t d) x
      = (findNodeById t x).map (normalizeNode d) := by
  induction t using forestInduction with
  | nil => simp [normalizeExpansionStateCore, findNodeById]
  | consFolder i nm ch ex rest ihch ihrest =>
      simp only [normalizeExpansionStateCore, normalizeNode, findNodeById,
        TreeNode.id_folder]
      by_cases hix : i == x
      · simp [hix, normalizeNode]
      · simp only [Bool.not_eq_true] at hix
        simp only [hix, Bool.false_eq_true, if_false, ihch]
        rcases hch : findNodeById ch x with _ | found
        · simp [ihrest]
        · simp
  | consComp i nm c ty rest ihrest =>
      simp only [normalizeExpansionStateCore, normalizeNode, findNodeById,
        TreeNode.id_component]
      by_cases hix : i == x
      · simp [hix, normalizeNode]
      · simp only [Bool.not_eq_true] at hix
        simp only [hix, Bool.false_eq_true, if_false, ihrest]

/-- C8: `normalizeExpansionState` (i) gives every folder at every depth
an explicit `expanded` boolean; (ii) maps each node to its
`normalizeNode` image — a folder keeps its id, name and (normalized)
children and gets `expanded := some (prior value, defaulting to
`defaultExpanded` when absent)`, a component is unchanged; and (iii) is
idempotent: a second application with the same default is the identity on
the result. -/
theorem normalizeExpansionState_spec (F : List TreeNode) (d : Bool) :
    everyFolderExplicit (normalizeExpansionState F d) = true
  ∧ (∀ x, findNodeById (normalizeExpansionState F d) x
      = (findNodeById F x).map (normalizeNode d))
  ∧ (∀ i nm ch ex, normalizeNode d (.folder i nm ch ex)
      = .folder i nm (normalizeExpansionState ch d) (some (ex.getD d)))
  ∧ (∀ i nm c ty, normalizeNode d (.component i nm c ty) = .component i nm c ty)
  ∧ normalizeExpansionState (normalizeExpansionState F d) d
      = normalizeExpansionState F d := by
  refine ⟨everyFolderExplicit_normalize d F, fun x => findNodeById_normalize F d x,
    fun i nm ch ex => by simp [normalizeNode, normalizeExpansionState],
    fun i nm c ty => by simp [normalizeNode],
    normalize_of_explicit d _ (everyFolderExplicit_normalize d F)⟩

/-- The invariant the reconciliation effect maintains on the provider
state: a `null` active pointer only with an empty collection, otherwise
an active pointer that resolves. -/
def promptStateWF (st : PromptState) : Bool :=
  match st.activePromptId with
  | none => st.prompts.isEmpty
  | some a => st.prompts.any (fun p => p.id == a)

/-- Reconciliation never changes the prompt collection itself. -/
theorem reconcileActivePrompt_prompts (st : PromptState) :
    (reconcileActivePrompt st).prompts = st.prompts := by
  unfold reconcileActivePrompt
  rcases st with ⟨prompts, active⟩
  cases prompts with
  | nil => rfl
  | cons p rest => dsimp only; split <;> rfl

/-- Unfolding lemma for the active pointer after reconciliation. -/
theorem reconcileActivePrompt_active (prompts : List Prompt) (active : Option String) :
    (reconcileActivePrompt ⟨prompts, active⟩).activePromptId =
      (match prompts with
       | [] => none
       | p :: rest =>
           if (p :: rest).any (fun q => some q.id == active) then active
           else some p.id) := by
  unfold reconcileActivePrompt
  cases prompts with
  | nil => rfl
  | cons p rest => dsimp only; split <;> rfl

/-- C9: deleting a prompt that is present removes it from the collection;
if it was the active prompt, after the provider's reconciliation effect
the first remaining prompt (in collection order) becomes active — or the
active pointer becomes `none` when no prompts remain; if it was not
active, the active pointer is unchanged.  The hypothesis `promptStateWF`
is the invariant the reconciliation effect itself maintains on every
reachable state. -/
theorem deletePrompt_spec (st : PromptState) (pid : String)
    (hwf : promptStateWF st = true)
    (hmem : st.prompts.any (fun p => p.id == pid) = true) :
    (reconcileActivePrompt (deletePrompt st pid)).prompts
        = st.prompts.filter (fun p => p.id != pid)
  ∧ (st.activePromptId = some pid →
      (reconcileActivePrompt (deletePrompt st pid)).activePromptId
        = (match st.prompts.filter (fun p => p.id != pid) with
           | [] => none
           | q :: _ => some q.id))
  ∧ (st.activePromptId ≠ some pid →
      (reconcileActivePrompt (deletePrompt st pid)).activePromptId
        = st.activePromptId) := by
  rcases st with ⟨prompts, active⟩
  simp only at hmem
  refine ⟨?_, ?_, ?_⟩
  · rw [reconcileActivePrompt_prompts]
    rfl
  · intro hact
    simp only at hact
    subst hact
    cases prompts with
    | nil => simp at hmem
    | cons p0 ps =>
        have hdel : deletePrompt ⟨p0 :: ps, some pid⟩ pid
            = ⟨(p0 :: ps).filter (fun p => p.id != pid), some p0.id⟩ := by
          simp [deletePrompt]
        rw [hdel, reconcileActivePrompt_active]
        simp only
        rcases hfil : (p0 :: ps).filter (fun p => p.id != pid) with _ | ⟨q, qs⟩
        · rw [hfil]
        · rw [hfil]
          by_cases hp0 : p0.id = pid
          · have hany : ((q :: qs).any fun r =>
                some r.id == some p0.id) = false := by
              rw [List.any_eq_false]
              intro r hr
              have hrmem : r ∈ (p0 :: ps).filter (fun p => p.id != pid) :=
                hfil ▸ hr
              have hne := List.of_mem_filter hrmem
              simp only [bne_iff_ne, ne_eq] at hne
              simp [hp0, hne]
            simp only [hany, Bool.false_eq_true, if_false]
          · have hq : q = p0 := by
              have hexp : (p0 :: ps).filter (fun p => p.id != pid)
                  = p0 :: ps.filter (fun p => p.id != pid) := by
                simp [List.filter_cons, bne_iff_ne, hp0]
              rw [hexp] at hfil
              exact (List.cons.inj hfil).1.symm
            have hany : ((q :: qs).any fun r =>
                some r.id == some p0.id) = true := by
              rw [List.any_eq_true]
              exact ⟨q, List.mem_cons_self q qs, by simp [hq]⟩
            simp [hany, hq]
  · intro hact
    simp only at hact
    have hcond : (active == some pid) = false := by
      cases active with
      | none => rfl
      | some a => simpa using fun h => hact (by rw [h])
    have hdel : deletePrompt ⟨prompts, active⟩ pid
        = ⟨prompts.filter (fun p => p.id != pid), active⟩ := by
      simp [deletePrompt, hcond]
    rw [hdel, reconcileActivePrompt_active]
    simp only
    cases active with
    | none =>
        simp only [promptStateWF] at hwf
        rw [List.isEmpty_iff] at hwf
        subst hwf
        simp at hmem
    | some a =>
        simp only [promptStateWF, List.any_eq_true] at hwf
        obtain ⟨p, hp, hpa⟩ := hwf
        have hpa' : p.id = a := by simpa using hpa
        have hane : a ≠ pid := fun h => hact (by rw [h])
        have hpin : p ∈ prompts.filter (fun r => r.id != pid) := by
          rw [List.mem_filter]
          exact ⟨hp, by simp [hpa', hane]⟩
        rcases hfil : prompts.filter (fun r => r.id != pid) with _ | ⟨q, qs⟩
        · rw [hfil] at hpin; simp at hpin
        · rw [hfil]
          have hany : ((q :: qs).any fun r => some r.id == some a) = true := by
            rw [List.any_eq_true]
            exact ⟨p, hfil ▸ hpin, by simp [hpa']⟩
          simp only [hany, if_true]

/-- Witness instance for C9: deleting the active first prompt of a
two-prompt collection makes the remaining prompt active. -/
theorem deletePrompt_spec_witness :
    (reconcileActivePrompt (deletePrompt
        ⟨[⟨"p1", 1, "A", []⟩, ⟨"p2", 2, "B", []⟩], some "p1"⟩ "p1")).activePromptId
      = some "p2" := by
  have h := (deletePrompt_spec
    ⟨[⟨"p1", 1, "A", []⟩, ⟨"p2", 2, "B", []⟩], some "p1"⟩ "p1"
    (by decide) (by decide)).2.1 rfl
  simpa using h

/-- `find?` by a field that a transformation preserves commutes with
`map`. -/
theorem find?_map_of_pred_preserved {α : Type} (l : List α) (p : α → Bool)
    (f : α → α) (hf : ∀ a, p (f a) = p a) :
    (l.map f).find? p = (l.find? p).map f := by
  rw [List.find?_map]
  have : (p ∘ f) = p := funext fun a => by simp [Function.comp, hf]
  rw [this]

/-- The `dirty` flag of the section `sectionId` of prompt `promptId`, as
an observer on a prompt collection. -/
def sectionDirty (prompts : List Prompt) (promptId sectionId : String) : Option Bool :=
  match prompts.find? (fun p => p.id == promptId) with
  | none => none
  | some p => (p.sections.find? (fun s => s.id == sectionId)).map (·.dirty)

/-- Counterexample for C2: a linked section with `originalContent = "X"`
updated via `updateSection` with `{content: "X"}` ends with
`dirty = true`, not the `false` the claim requires — the source sets
`dirty: true` unconditionally after the spread. -/
theorem updateSection_dirty_counterexample :
    (PSection.linkedComponentId
        ⟨"s1", "S", "Y", .instruction, some "c1", some "X", true, true,
          some false, none, none⟩ = some "c1"
     ∧ PSection.originalContent
        ⟨"s1", "S", "Y", .instruction, some "c1", some "X", true, true,
          some false, none, none⟩ = some "X")
  ∧ sectionDirty
      (updateSection
        [⟨"p1", 1, "P",
          [⟨"s1", "S", "Y", .instruction, some "c1", some "X", true, true,
            some false, none, none⟩]⟩]
        "p1" "s1" { content := some "X" }) "p1" "s1" = some true := by
  refine ⟨⟨rfl, rfl⟩, ?_⟩
  decide

/-- C2 (amended): `updateSection` shallow-merges the partial update into
the target section and then sets `dirty := true` unconditionally,
overriding both any `dirty` value passed in the update and the
content/originalContent comparison; the content-derived dirty flag the
claim describes is instead computed by `updateSectionContent` (monolithic
`App.tsx`): there, a section with a truthy `linkedComponentId` gets
`dirty = (newContent !== originalContent)` and an unlinked section gets
`dirty = false`. -/
theorem updateSection_dirty_spec :
    (∀ (prompts : List Prompt) (pid sid : String) (u : SectionUpdate) (p : Prompt),
        prompts.find? (fun q => q.id == pid) = some p →
        ∀ s, p.sections.find? (fun t => t.id == sid) = some s →
        sectionDirty (updateSection prompts pid sid u) pid sid = some true)
  ∧ (∀ (sections : List PSection) (sid : String) (c : String) (s : PSection),
        sections.find? (fun t => t.id == sid) = some s →
        ((updateSectionContent sections sid c).find? (fun t => t.id == sid)).map
            (·.dirty)
          = some (if jsTruthyStr s.linkedComponentId then
                    some c != s.originalContent
                  else false)) := by
  constructor
  · intro prompts pid sid u p hp s hs
    have hpid : (p.id == pid) = true := by simpa using List.find?_some hp
    have hsid : (s.id == sid) = true := by simpa using List.find?_some hs
    unfold updateSection sectionDirty
    rw [find?_map_of_pred_preserved prompts (fun q => q.id == pid)
      _ (fun q => by by_cases h : q.id == pid <;> simp [h])]
    rw [hp]
    simp only [Option.map_some', hpid, if_true]
    rw [find?_map_of_pred_preserved p.sections (fun t => t.id == sid)
      _ (fun t => by
        by_cases h : t.id == sid <;> simp [h, mergeSection])]
    rw [hs]
    have hsid2 : s.id = sid := by simpa using hsid
    simp [hsid2]
  · intro sections sid c s hs
    have hsid : (s.id == sid) = true := by simpa using List.find?_some hs
    unfold updateSectionContent
    rw [find?_map_of_pred_preserved sections (fun t => t.id == sid)
      _ (fun t => by by_cases h : t.id == sid <;> simp [h])]
    rw [hs]
    have hsid2 : s.id = sid := by simpa using hsid
    simp [hsid2]

/-- Witness instance for C2 (amended): the spec's X/Y scenario evaluated
through `updateSectionContent` — updating a linked section with new
content "Y" yields `dirty = true`, and restoring "X" yields
`dirty = false`; while `updateSection` marks the section dirty. -/
theorem updateSection_dirty_spec_witness :
    ((updateSectionContent
        [⟨"s1", "S", "X", .instruction, some "c1", some "X", true, false,
          some false, none, none⟩] "s1" "Y").find? (fun t => t.id == "s1")).map
        (·.dirty) = some true
  ∧ ((updateSectionContent
        [⟨"s1", "S", "Y", .instruction, some "c1", some "X", true, true,
          some false, none, none⟩] "s1" "X").find? (fun t => t.id == "s1")).map
        (·.dirty) = some false
  ∧ sectionDirty
      (updateSection
        [⟨"p1", 1, "P",
          [⟨"s1", "S", "X", .instruction, none, none, true, false,
            some false, none, none⟩]⟩]
        "p1" "s1" { content := some "Z" }) "p1" "s1" = some true := by
  refine ⟨?_, ?_, ?_⟩
  · have h := updateSection_dirty_spec.2
      [⟨"s1", "S", "X", .instruction, some "c1", some "X", true, false,
        some false, none, none⟩] "s1" "Y"
      ⟨"s1", "S", "X", .instruction, some "c1", some "X", true, false,
        some false, none, none⟩ (by decide)
    simpa using h
  · have h := updateSection_dirty_spec.2
      [⟨"s1", "S", "Y", .instruction, some "c1", some "X", true, true,
        some false, none, none⟩] "s1" "X"
      ⟨"s1", "S", "Y", .instruction, some "c1", some "X", true, true,
        some false, none, none⟩ (by decide)
    simpa using h
  · exact updateSection_dirty_spec.1
      [⟨"p1", 1, "P",
        [⟨"s1", "S", "X", .instruction, none, none, true, false,
          some false, none, none⟩]⟩]
      "p1" "s1" { content := some "Z" }
      ⟨"p1", 1, "P",
        [⟨"s1", "S", "X", .instruction, none, none, true, false,
          some false, none, none⟩]⟩ (by decide)
      ⟨"s1", "S", "X", .instruction, none, none, true, false,
        some false, none, none⟩ (by decide)

/-- The id supply is injective (it models `uuidv4`, whose outputs never
collide). -/
theorem uuid_injective : Function.Injective uuid := by
  intro a b h
  have hlen := congrArg String.length h
  simpa [uuid, String.length_append, String.length_replicate] using hlen

/-- Copying sections preserves the count. -/
theorem copySectionsFresh_length (ctr : Nat) (l : List PSection) :
    (copySectionsFresh ctr l).length = l.length := by
  induction l generalizing ctr with
  | nil => rfl
  | cons s rest ih => simp [copySectionsFresh, ih]

/-- The `j`-th copied section is the `j`-th original with a fresh id and
reset dirty/transient-edit state. -/
theorem copySectionsFresh_get? (ctr : Nat) (l : List PSection) (j : Nat) :
    (copySectionsFresh ctr l).get? j = (l.get? j).map (fun s =>
      { s with
        id := uuid (ctr + j)
        dirty := false
        editingHeader := some false
        editingHeaderTempName := none
        editingHeaderTempType := none }) := by
  induction l generalizing ctr j with
  | nil => simp [copySectionsFresh]
  | cons s rest ih =>
      cases j with
      | zero => simp [copySectionsFresh]
      | succ j' =>
          simp only [copySectionsFresh, List.get?_cons_succ, ih (ctr + 1) j']
          congr 1
          funext t
          have : ctr + 1 + j' = ctr + (j' + 1) := by omega
          rw [this]

/-- Every copied-section id is a supply output drawn at or after `ctr`
and before `ctr + length`. -/
theorem copySectionsFresh_id_mem (ctr : Nat) (l : List PSection) (x : String) :
    x ∈ (copySectionsFresh ctr l).map (·.id) →
      ∃ j, j < l.length ∧ x = uuid (ctr + j) := by
  induction l generalizing ctr with
  | nil => simp [copySectionsFresh]
  | cons s rest ih =>
      simp only [copySectionsFresh, List.map_cons, List.mem_cons]
      rintro (h | h)
      · exact ⟨0, by simp, by simpa using h⟩
      · obtain ⟨j, hj, hx⟩ := ih (ctr + 1) h
        exact ⟨j + 1, by simp only [List.length_cons]; omega, by rw [hx]; congr 1; omega⟩

/-- The copied sections carry pairwise distinct (fresh) ids. -/
theorem copySectionsFresh_ids_nodup (ctr : Nat) (l : List PSection) :
    ((copySectionsFresh ctr l).map (·.id)).Nodup := by
  induction l generalizing ctr with
  | nil => simp [copySectionsFresh]
  | cons s rest ih =>
      simp only [copySectionsFresh, List.map_cons, List.nodup_cons]
      refine ⟨fun hmem => ?_, ih (ctr + 1)⟩
      obtain ⟨j, _, hx⟩ := copySectionsFresh_id_mem (ctr + 1) rest _ hmem
      have := uuid_injective hx
      omega

/-- Counterexample for C3: duplicating a prompt named "P" produces the
name "P (Copy)" — capital C — not the "P (copy)" the claim states. -/
theorem duplicatePrompt_name_counterexample :
    ((duplicatePrompt ⟨[⟨"p1", 1, "P", []⟩], some "p1"⟩ "p1" 0).1.map Prompt.name)
        = some "P (Copy)"
  ∧ "P (Copy)" ≠ "P" ++ " (copy)" := by
  constructor
  · decide
  · decide

/-- C3 (amended): `duplicatePrompt` returns `none` (without touching the
state) when the id does not resolve; otherwise it builds a new prompt
whose sections are copies of the original's (same count, section `j`
equal to the original section `j` except for a freshly drawn id,
`dirty := false` and reset transient header-editing fields, regardless of
the originals' state), whose name is the original name suffixed with
`" (Copy)"`, and the new prompt is appended to the collection and made
the active prompt; all the drawn ids are pairwise distinct. -/
theorem duplicatePrompt_spec :
    (∀ (st : PromptState) (pid : String) (ctr : Nat),
        st.prompts.find? (fun p => p.id == pid) = none →
        duplicatePrompt st pid ctr = (none, st, ctr))
  ∧ (∀ (st : PromptState) (pid : String) (ctr : Nat) (p : Prompt),
      st.prompts.find? (fun p => p.id == pid) = some p →
      ∃ newP : Prompt,
        duplicatePrompt st pid ctr
          = (some newP, ⟨st.prompts ++ [newP], some newP.id⟩,
             ctr + p.sections.length + 1)
        ∧ newP.name = p.name ++ " (Copy)"
        ∧ newP.id = uuid (ctr + p.sections.length)
        ∧ newP.num = Int.ofNat st.prompts.length + 1
        ∧ newP.sections.length = p.sections.length
        ∧ (∀ j, newP.sections.get? j = (p.sections.get? j).map (fun s =>
            { s with
              id := uuid (ctr + j)
              dirty := false
              editingHeader := some false
              editingHeaderTempName := none
              editingHeaderTempType := none }))
        ∧ (newP.sections.map (·.id)).Nodup
        ∧ newP.id ∉ newP.sections.map (·.id)) := by
  constructor
  · intro st pid ctr hfind
    unfold duplicatePrompt
    rw [hfind]
  · intro st pid ctr p hfind
    refine ⟨{ id := uuid (ctr + p.sections.length)
              name := p.name ++ " (Copy)"
              sections := copySectionsFresh ctr p.sections
              num := Int.ofNat st.prompts.length + 1 },
      ?_, rfl, rfl, rfl, copySectionsFresh_length ctr p.sections,
      fun j => copySectionsFresh_get? ctr p.sections j,
      copySectionsFresh_ids_nodup ctr p.sections, ?_⟩
    · unfold duplicatePrompt
      rw [hfind]
    · intro hmem
      obtain ⟨j, hj, hx⟩ :=
        copySectionsFresh_id_mem ctr p.sections _ hmem
      have := uuid_injective hx
      omega

/-- Witness instance for C3 (amended): duplicating a one-section prompt.
The duplicate is appended, active, named with the `" (Copy)"` suffix, and
its section is a fresh-id copy with `dirty := false`. -/
theorem duplicatePrompt_spec_witness :
    ∃ newP : Prompt,
      duplicatePrompt
          ⟨[⟨"p1", 7, "P",
             [⟨"s1", "S", "hello", .role, some "c1", some "hello", true, true,
               some true, some "tmp", some .role⟩]⟩], some "p1"⟩ "p1" 0
        = (some newP,
           ⟨[⟨"p1", 7, "P",
              [⟨"s1", "S", "hello", .role, some "c1", some "hello", true, true,
                some true, some "tmp", some .role⟩]⟩] ++ [newP], some newP.id⟩,
           0 + 1 + 1)
      ∧ newP.name = "P" ++ " (Copy)"
      ∧ newP.id = uuid (0 + 1)
      ∧ newP.num = Int.ofNat 1 + 1
      ∧ newP.sections.length = 1
      ∧ (∀ j, newP.sections.get? j =
          ([(⟨"s1", "S", "hello", .role, some "c1", some "hello", true, true,
             some true, some "tmp", some .role⟩ : PSection)].get? j).map (fun s =>
            { s with
              id := uuid (0 + j)
              dirty := false
              editingHeader := some false
              editingHeaderTempName := none
              editingHeaderTempType := none }))
      ∧ (newP.sections.map (·.id)).Nodup
      ∧ newP.id ∉ newP.sections.map (·.id) := by
  have h := duplicatePrompt_spec.2
    ⟨[⟨"p1", 7, "P",
       [⟨"s1", "S", "hello", .role, some "c1", some "hello", true, true,
         some true, some "tmp", some .role⟩]⟩], some "p1"⟩ "p1" 0
    ⟨"p1", 7, "P",
     [⟨"s1", "S", "hello", .role, some "c1", some "hello", true, true,
       some true, some "tmp", some .role⟩]⟩ (by decide)
  simpa using h

/-- Counterexample for C4: with markdown prompting disabled the claim
requires `getCompiledPromptText` to return the concatenation of the
section contents ("C" here), but the function — which never consults the
markdown setting — returns a lowercase-type heading line instead. -/
theorem getCompiledPromptText_counterexample :
    getCompiledPromptText
        [⟨"p1", 1, "P",
          [⟨"s1", "N", "C", .instruction, none, none, true, false, none, none,
            none⟩]⟩] "p1"
        = "# instruction: N\nC"
  ∧ "# instruction: N\nC" ≠ "C" := by
  constructor
  · decide
  · decide

/-- C4 (amended): `getCompiledPromptText` returns `""` when the prompt
does not resolve and otherwise renders every section as
`"# <type>: <name>"` (raw lowercase type) followed on the next line by
its content, sections joined by a blank line — independent of the
markdown-prompting setting and without the system prompt.  The behavior
the claim describes belongs to `handleCopy` in the monolithic `App.tsx`:
with markdown prompting disabled it joins the section contents with blank
lines, and with it enabled it prepends the configured system prompt and
renders capitalized-type headings with a blank line before each content
block. -/
theorem getCompiledPromptText_spec :
    (∀ (prompts : List Prompt) (pid : String),
        prompts.find? (fun p => p.id == pid) = none →
        getCompiledPromptText prompts pid = "")
  ∧ (∀ (prompts : List Prompt) (pid : String) (p : Prompt),
        prompts.find? (fun p => p.id == pid) = some p →
        getCompiledPromptText prompts pid
          = String.intercalate "\n\n" (p.sections.map fun s =>
              "# " ++ s.type.toStr ++ ": " ++ s.name ++ "\n" ++ s.content))
  ∧ (∀ (systemPrompt : String) (sections : List PSection),
        handleCopyText false systemPrompt sections
          = String.intercalate "\n\n" (sections.map (·.content)))
  ∧ (∀ (systemPrompt : String) (sections : List PSection),
        handleCopyText true systemPrompt sections
          = systemPrompt ++ "\n\n" ++
            String.intercalate "\n\n" (sections.map fun s =>
              "# " ++ s.type.capitalized ++ ": " ++ s.name ++ "\n\n" ++ s.content)) := by
  refine ⟨?_, ?_, ?_, ?_⟩
  · intro prompts pid h
    unfold getCompiledPromptText
    rw [h]
  · intro prompts pid p h
    unfold getCompiledPromptText
    rw [h]
  · intro systemPrompt sections
    rfl
  · intro systemPrompt sections
    rfl

/-- Witness instance for C4 (amended): a resolving prompt gets the
heading rendering; the legacy copy path joins plain contents when
markdown is off. -/
theorem getCompiledPromptText_spec_witness :
    getCompiledPromptText
        [⟨"p1", 1, "P",
          [⟨"s1", "N", "C", .role, none, none, true, false, none, none, none⟩]⟩]
        "p1"
      = String.intercalate "\n\n"
          ([(⟨"s1", "N", "C", .role, none, none, true, false, none, none,
              none⟩ : PSection)].map fun s =>
            "# " ++ s.type.toStr ++ ": " ++ s.name ++ "\n" ++ s.content) :=
  getCompiledPromptText_spec.2.1
    [⟨"p1", 1, "P",
      [⟨"s1", "N", "C", .role, none, none, true, false, none, none, none⟩]⟩]
    "p1"
    ⟨"p1", 1, "P",
      [⟨"s1", "N", "C", .role, none, none, true, false, none, none, none⟩]⟩
    (by decide)

/-- Overwriting pass of `mapSet`: when the key is present, the rewritten
list resolves the key to the new value. -/
theorem find_map_overwrite (m : List (Int × String)) (k : Int) (v : String)
    (h : m.any (fun e => e.1 == k) = true) :
    (m.map (fun e => if e.1 == k then (k, v) else e)).find? (fun e => e.1 == k)
      = some (k, v) := by
  induction m with
  | nil => simp at h
  | cons f rest ih =>
      simp only [List.any_cons, Bool.or_eq_true] at h
      by_cases hf : (f.1 == k) = true
      · rw [List.map_cons, if_pos hf]
        simp [List.find?]
      · have hf0 : (f.1 == k) = false := by simpa using hf
        have htail : rest.any (fun e => e.1 == k) = true := by
          rcases h with h | h
          · exact absurd h (by simp [hf0])
          · exact h
        rw [List.map_cons, if_neg hf]
        simp only [List.find?, hf0]
        exact ih htail

/-- Appending pass of `mapSet`: when the key is absent, the appended
entry is what resolves it. -/
theorem find_append_new (m : List (Int × String)) (k : Int) (v : String)
    (h : m.any (fun e => e.1 == k) = false) :
    (m ++ [(k, v)]).find? (fun e => e.1 == k) = some (k, v) := by
  induction m with
  | nil => simp [List.find?]
  | cons f rest ih =>
      simp only [List.any_cons, Bool.or_eq_false_iff] at h
      rw [List.cons_append]
      simp [List.find?, h.1, ih h.2]

/-- The overwriting pass leaves other keys' resolutions unchanged. -/
theorem find_map_other (m : List (Int × String)) (k k' : Int) (v : String)
    (hne : k' ≠ k) :
    (m.map (fun e => if e.1 == k then (k, v) else e)).find? (fun e => e.1 == k')
      = m.find? (fun e => e.1 == k') := by
  induction m with
  | nil => rfl
  | cons f rest ih =>
      by_cases hf : (f.1 == k) = true
      · have hf1 : f.1 = k := by simpa using hf
        have h2 : (k == k') = false := by simp [Ne.symm hne]
        have h3 : (f.1 == k') = false := by simp [hf1, Ne.symm hne]
        rw [List.map_cons, if_pos hf]
        simp only [List.find?, h2, h3]
        exact ih
      · rw [List.map_cons, if_neg hf]
        simp only [List.find?]
        by_cases hk' : (f.1 == k') = true
        · simp [hk']
        · have hk0 : (f.1 == k') = false := by simpa using hk'
          simp only [hk0]
          exact ih

/-- The appending pass leaves other keys' resolutions unchanged. -/
theorem find_append_other (m : List (Int × String)) (k k' : Int) (v : String)
    (hne : k' ≠ k) :
    (m ++ [(k, v)]).find? (fun e => e.1 == k') = m.find? (fun e => e.1 == k') := by
  induction m with
  | nil =>
      have h2 : (k == k') = false := by simp [Ne.symm hne]
      simp [List.find?, h2]
  | cons f rest ih =>
      rw [List.cons_append]
      by_cases hk' : (f.1 == k') = true
      · simp [List.find?, hk']
      · have hk0 : (f.1 == k') = false := by simpa using hk'
        simp [List.find?, hk0, ih]

/-- `Map.get` after `Map.set` of the same key. -/
theorem mapGet_set_self (m : List (Int × String)) (k : Int) (v : String) :
    mapGet (mapSet m k v) k = some v := by
  unfold mapGet mapSet
  by_cases h : m.any (fun e => e.1 == k)
  · rw [if_pos h, find_map_overwrite m k v h]
    rfl
  · rw [if_neg h, find_append_new m k v (by simp only [Bool.not_eq_true] at h; exact h)]
    rfl

/-- `Map.get` after `Map.set` of a different key. -/
theorem mapGet_set_other (m : List (Int × String)) (k k' : Int) (v : String)
    (hne : k' ≠ k) : mapGet (mapSet m k v) k' = mapGet m k' := by
  unfold mapGet mapSet
  by_cases h : m.any (fun e => e.1 == k)
  · rw [if_pos h, find_map_other m k k' v hne]
  · rw [if_neg h, find_append_other m k k' v hne]

/-- The `name` of a raw node. -/
def RawNode.nameOf : RawNode → String
  | .folder n _ _ => n
  | .component n _ _ _ => n

/-- The raw `content` of a raw component (`none` for folders). -/
def RawNode.contentOf : RawNode → Option String
  | .folder _ _ _ => none
  | .component _ _ c _ => c

/-- The raw `componentType` of a raw component (`none` for folders). -/
def RawNode.compTypeOf : RawNode → Option String
  | .folder _ _ _ => none
  | .component _ _ _ t => t

/-- Single-node restriction of `findRawCompByNum`. -/
def findRawCompByNumNode : RawNode → Int → Option RawNode
  | .folder _ _ children, k => findRawCompByNum children k
  | .component name id c t, k =>
      if id == some (.num k) then some (.component name id c t) else none

/-- `findRawCompByNum` steps one node at a time. -/
theorem findRawCompByNum_cons (n : RawNode) (rest : List RawNode) (k : Int) :
    findRawCompByNum (n :: rest) k =
      (match findRawCompByNumNode n k with
       | some c => some c
       | none => findRawCompByNum rest k) := by
  cases n with
  | folder name id children =>
      simp only [findRawCompByNum, findRawCompByNumNode]
  | component name id c t =>
      simp only [findRawCompByNum, findRawCompByNumNode]
      by_cases h : id == some (.num k)
      · simp [h]
      · simp only [Bool.not_eq_true] at h
        simp [h]

/-- `componentEntries` splits off the head node's entries. -/
theorem componentEntries_cons (m : TreeNode) (l : List TreeNode) :
    componentEntries (m :: l) = componentEntries [m] ++ componentEntries l := by
  cases m <;> simp [componentEntries]

mutual
/-- Processing a node holding no component with numeric id `k` leaves
`k`'s entry in the translation map untouched. -/
theorem processNode_map_count0 (st : ParseSt) (n : RawNode) (k : Int)
    (h : countCompNumNode n k = 0) :
    mapGet ((processNode st n).2).idMap k = mapGet st.idMap k := by
  cases n with
  | folder name id children =>
      simp only [countCompNumNode] at h
      rcases hpn : processNodes { st with ctr := st.ctr + 1 } children with ⟨ch', st2⟩
      simp only [processNode, hpn]
      have := processNodes_map_count0 { st with ctr := st.ctr + 1 } children k h
      rw [hpn] at this
      exact this
  | component name id c t =>
      simp only [countCompNumNode] at h
      simp only [processNode]
      match id with
      | none => rfl
      | some (.str s) => rfl
      | some (.num m) =>
          have hmk : ¬ m = k := by
            intro hmk
            subst hmk
            simp at h
          simp only []
          exact mapGet_set_other st.idMap m k (uuid st.ctr) (Ne.symm hmk)

/-- Processing a forest holding no component with numeric id `k` leaves
`k`'s entry in the translation map untouched. -/
theorem processNodes_map_count0 (st : ParseSt) (l : List RawNode) (k : Int)
    (h : countCompNum l k = 0) :
    mapGet ((processNodes st l).2).idMap k = mapGet st.idMap k := by
  match l with
  | [] => rfl
  | n :: rest =>
      simp only [countCompNum] at h
      have hn : countCompNumNode n k = 0 := by omega
      have hrest : countCompNum rest k = 0 := by omega
      rcases hp1 : processNode st n with ⟨n', st1⟩
      rcases hp2 : processNodes st1 rest with ⟨rest', st2⟩
      simp only [processNodes, hp1, hp2]
      have e1 := processNode_map_count0 st n k hn
      rw [hp1] at e1
      have e2 := processNodes_map_count0 st1 rest k hrest
      rw [hp2] at e2
      rw [e2, e1]
end

mutual
/-- A node holding no component with numeric id `k` yields no raw lookup
result for `k`. -/
theorem findRawCompByNumNode_none (n : RawNode) (k : Int)
    (h : countCompNumNode n k = 0) :
    ∀ c, findRawCompByNumNode n k ≠ some c := by
  intro c hc
  cases n with
  | folder name id children =>
      simp only [countCompNumNode] at h
      simp only [findRawCompByNumNode] at hc
      exact findRawCompByNum_none children k h c hc
  | component name id cc t =>
      simp only [countCompNumNode] at h
      simp only [findRawCompByNumNode] at hc
      by_cases hcond : (id == some (.num k)) = true
      · rw [hcond] at h; simp at h
      · simp only [Bool.not_eq_true] at hcond
        rw [hcond] at hc
        simp at hc

/-- A forest holding no component with numeric id `k` yields no raw
lookup result for `k`. -/
theorem findRawCompByNum_none (l : List RawNode) (k : Int)
    (h : countCompNum l k = 0) :
    ∀ c, findRawCompByNum l k ≠ some c := by
  intro c hc
  match l with
  | [] => simp [findRawCompByNum] at hc
  | n :: rest =>
      simp only [countCompNum] at h
      rw [findRawCompByNum_cons] at hc
      rcases hf : findRawCompByNumNode n k with _ | c'
      · rw [hf] at hc
        exact findRawCompByNum_none rest k (by omega) c hc
      · exact findRawCompByNumNode_none n k (by omega) c' hf
end

mutual
/-- Processing a node holding exactly one component with numeric id `k`
registers that component's freshly generated id in the translation map,
and the processed output contains a component carrying that id together
with the raw component's name, defaulted content and parsed type. -/
theorem processNode_map_count1 (st : ParseSt) (n : RawNode) (k : Int)
    (h : countCompNumNode n k = 1) :
    ∃ (newId : String) (rawc : RawNode),
      mapGet ((processNode st n).2).idMap k = some newId
      ∧ (∃ kk, newId = uuid kk)
      ∧ findRawCompByNumNode n k = some rawc
      ∧ (newId, rawc.nameOf, rawc.contentOf.getD "",
          parseCompType rawc.compTypeOf) ∈ componentEntries [(processNode st n).1] := by
  cases n with
  | folder name id children =>
      simp only [countCompNumNode] at h
      rcases hpn : processNodes { st with ctr := st.ctr + 1 } children with ⟨ch', st2⟩
      obtain ⟨newId, rawc, hmap, hk, hfind, hmem⟩ :=
        processNodes_map_count1 { st with ctr := st.ctr + 1 } children k h
      rw [hpn] at hmap hmem
      refine ⟨newId, rawc, ?_, hk, ?_, ?_⟩
      · simp only [processNode, hpn]
        exact hmap
      · simp only [findRawCompByNumNode]
        exact hfind
      · simp only [processNode, hpn, componentEntries]
        simpa using hmem
  | component name id c t =>
      simp only [countCompNumNode] at h
      have hid : id = some (.num k) := by
        by_cases hc : (id == some (.num k)) = true
        · simpa using hc
        · simp only [Bool.not_eq_true] at hc
          rw [hc] at h
          simp at h
      subst hid
      refine ⟨uuid st.ctr, .component name (some (.num k)) c t, ?_, ⟨st.ctr, rfl⟩, ?_, ?_⟩
      · simp only [processNode]
        exact mapGet_set_self st.idMap k (uuid st.ctr)
      · simp [findRawCompByNumNode]
      · simp [processNode, componentEntries, RawNode.nameOf, RawNode.contentOf,
          RawNode.compTypeOf]

/-- Forest version of `processNode_map_count1`. -/
theorem processNodes_map_count1 (st : ParseSt) (l : List RawNode) (k : Int)
    (h : countCompNum l k = 1) :
    ∃ (newId : String) (rawc : RawNode),
      mapGet ((processNodes st l).2).idMap k = some newId
      ∧ (∃ kk, newId = uuid kk)
      ∧ findRawCompByNum l k = some rawc
      ∧ (newId, rawc.nameOf, rawc.contentOf.getD "",
          parseCompType rawc.compTypeOf) ∈ componentEntries (processNodes st l).1 := by
  match l with
  | [] => simp [countCompNum] at h
  | n :: rest =>
      simp only [countCompNum] at h
      rcases hp1 : processNode st n with ⟨n', st1⟩
      rcases hp2 : processNodes st1 rest with ⟨rest', st2⟩
      by_cases hn1 : countCompNumNode n k = 1
      · have hrest : countCompNum rest k = 0 := by omega
        obtain ⟨newId, rawc, hmap, hk, hfind, hmem⟩ :=
          processNode_map_count1 st n k hn1
        rw [hp1] at hmap hmem
        refine ⟨newId, rawc, ?_, hk, ?_, ?_⟩
        · simp only [processNodes, hp1, hp2]
          have e2 := processNodes_map_count0 st1 rest k hrest
          rw [hp2] at e2
          rw [e2]
          exact hmap
        · rw [findRawCompByNum_cons, hfind]
        · simp only [processNodes, hp1, hp2]
          rw [componentEntries_cons]
          exact List.mem_append_left _ hmem
      · have hn0 : countCompNumNode n k = 0 := by omega
        have hrest : countCompNum rest k = 1 := by omega
        obtain ⟨newId, rawc, hmap, hk, hfind, hmem⟩ :=
          processNodes_map_count1 st1 rest k hrest
        rw [hp2] at hmap hmem
        refine ⟨newId, rawc, ?_, hk, ?_, ?_⟩
        · simp only [processNodes, hp1, hp2]
          exact hmap
        · rw [findRawCompByNum_cons]
          have hfn : findRawCompByNumNode n k = none := by
            rcases hf : findRawCompByNumNode n k with _ | c
            · rfl
            · exact absurd hf (findRawCompByNumNode_none n k hn0 c)
          rw [hfn]
          exact hfind
        · simp only [processNodes, hp1, hp2]
          rw [componentEntries_cons]
          exact List.mem_append_right _ hmem
end

/-- No supply output is the one-character string `"7"` (every output is
at least six characters long). -/
theorem uuid_ne_seven (n : Nat) : uuid n ≠ "7" := by
  intro h
  have := congrArg String.length h
  have h5 : "uuid-".length = 5 := rfl
  have h1 : "7".length = 1 := rfl
  simp only [uuid, String.length_append, String.length_replicate, h5, h1] at this
  omega

/-- The linked-component reference of the `j`-th parsed section of a raw
section list is the map-resolution of the raw reference (regardless of
the id-supply position). -/
theorem parseSections_linked (idMap : List (Int × String)) (ctr : Nat)
    (l : List RawSection) (j : Nat) :
    ((parseSections idMap ctr l).1.get? j).map (·.linkedComponentId)
      = (l.get? j).map (fun r => resolveLink idMap r.linkedComponentId) := by
  induction l generalizing ctr j with
  | nil => simp [parseSections]
  | cons r rest ih =>
      cases j with
      | zero => simp [parseSections, parseSection]
      | succ j' =>
          rcases hp : parseSections idMap (ctr + 1) rest with ⟨rest', ctr'⟩
          simp only [parseSections, hp, List.get?_cons_succ]
          have := ih (ctr + 1) j'
          rw [hp] at this
          exact this

/-- Prompt-collection version of `parseSections_linked`. -/
theorem parsePrompts_linked (idMap : List (Int × String)) (ctr : Nat)
    (ps : List RawPrompt) (i j : Nat) :
    (sectionAt (parsePrompts idMap ctr ps).1 i j).map (·.linkedComponentId)
      = (rawSectionAt ps i j).map (fun r => resolveLink idMap r.linkedComponentId) := by
  induction ps generalizing ctr i with
  | nil => simp [parsePrompts, sectionAt, rawSectionAt]
  | cons p rest ih =>
      rcases hp1 : parsePrompt idMap ctr p with ⟨p', ctr1⟩
      rcases hp2 : parsePrompts idMap ctr1 rest with ⟨rest', ctr2⟩
      cases i with
      | zero =>
          simp only [parsePrompts, hp1, hp2, sectionAt, rawSectionAt,
            List.get?_cons_zero]
          rcases hps : parseSections idMap (ctr + 1) p.sections with ⟨secs, ctr''⟩
          have hsec : p'.sections = secs := by
            simp only [parsePrompt, hps] at hp1
            cases hp1
            rfl
          rw [hsec]
          have := parseSections_linked idMap (ctr + 1) p.sections j
          rw [hps] at this
          exact this
      | succ i' =>
          simp only [parsePrompts, hp1, hp2, sectionAt, rawSectionAt,
            List.get?_cons_succ]
          have := ih ctr1 i'
          rw [hp2] at this
          simpa [sectionAt, rawSectionAt] using this

/-- C7: for every well-shaped `{ tree, prompts }` import file whose tree
carries exactly one component with legacy numeric id `7` and one of whose
prompt sections carries `linkedComponentId: 7`, `parseLoadedData` gives
that component a freshly generated string id and the parsed section's
`linkedComponentId` is exactly that id, resolved through the
numeric-to-string translation map built during the tree pass — a
component with that id (and the raw component's name, defaulted content
and parsed type) exists in the parsed tree, and the link is never the
literal string "7". -/
theorem parseLoadedData_legacy_link_remap (tree : List RawNode)
    (prompts : List RawPrompt) (i j : Nat) (rsec : RawSection)
    (hcount : countCompNum tree 7 = 1)
    (hsec : rawSectionAt prompts i j = some rsec)
    (hlink : rsec.linkedComponentId = some (.num 7)) :
    ∃ (newId : String) (rawc : RawNode),
      findRawCompByNum tree 7 = some rawc
      ∧ (sectionAt (parseLoadedData (.obj tree prompts)).2 i j).map
          (·.linkedComponentId) = some (some newId)
      ∧ mapGet ((processNodes ⟨0, []⟩ tree).2).idMap 7 = some newId
      ∧ (newId, rawc.nameOf, rawc.contentOf.getD "",
          parseCompType rawc.compTypeOf)
          ∈ componentEntries (parseLoadedData (.obj tree prompts)).1
      ∧ newId ≠ "7" := by
  obtain ⟨newId, rawc, hmap, ⟨kk, hkk⟩, hfind, hmem⟩ :=
    processNodes_map_count1 ⟨0, []⟩ tree 7 hcount
  rcases hpn : processNodes ⟨0, []⟩ tree with ⟨tree', st⟩
  rw [hpn] at hmap hmem
  have hparse : parseLoadedData (.obj tree prompts)
      = (tree', (parsePrompts st.idMap st.ctr prompts).1) := by
    simp only [parseLoadedData, hpn]
  refine ⟨newId, rawc, hfind, ?_, hmap, ?_, ?_⟩
  · rw [hparse]
    have := parsePrompts_linked st.idMap st.ctr prompts i j
    rw [hsec] at this
    simp only [Option.map_some'] at this
    rw [this, hlink]
    simp [resolveLink, hmap]
  · rw [hparse]
    exact hmem
  · rw [hkk]
    exact uuid_ne_seven kk

/-- Witness instance for C7: a legacy file with one component carrying
numeric id 7 and a section with `linkedComponentId: 7`. -/
theorem parseLoadedData_legacy_link_remap_witness :
    ∃ (newId : String) (rawc : RawNode),
      findRawCompByNum
        [.folder "Components" (some (.num 1))
          [.component "Greeting" (some (.num 7)) (some "Hello") (some "role")]] 7
        = some rawc
      ∧ (sectionAt (parseLoadedData (.obj
            [.folder "Components" (some (.num 1))
              [.component "Greeting" (some (.num 7)) (some "Hello") (some "role")]]
            [⟨"P", some (.num 3), none,
              [⟨"S", "Hello", some "role", some (.num 7), none, none, none, none,
                none, none⟩]⟩])).2 0 0).map (·.linkedComponentId)
          = some (some newId)
      ∧ mapGet ((processNodes ⟨0, []⟩
            [.folder "Components" (some (.num 1))
              [.component "Greeting" (some (.num 7)) (some "Hello") (some "role")]]).2).idMap 7
          = some newId
      ∧ (newId, rawc.nameOf, rawc.contentOf.getD "",
          parseCompType rawc.compTypeOf)
          ∈ componentEntries (parseLoadedData (.obj
            [.folder "Components" (some (.num 1))
              [.component "Greeting" (some (.num 7)) (some "Hello") (some "role")]]
            [⟨"P", some (.num 3), none,
              [⟨"S", "Hello", some "role", some (.num 7), none, none, none, none,
                none, none⟩]⟩])).1
      ∧ newId ≠ "7" :=
  parseLoadedData_legacy_link_remap
    [.folder "Components" (some (.num 1))
      [.component "Greeting" (some (.num 7)) (some "Hello") (some "role")]]
    [⟨"P", some (.num 3), none,
      [⟨"S", "Hello", some "role", some (.num 7), none, none, none, none,
        none, none⟩]⟩] 0 0
    ⟨"S", "Hello", some "role", some (.num 7), none, none, none, none, none, none⟩
    (by simp [countCompNum, countCompNumNode])
    (by simp [rawSectionAt])
    rfl
